import Mathlib

/-!
Verification of the noisecraft document-model specification against the
code of `src/public/main.js` (UI wiring) and, where the model internals
(`model.js`) are not part of the provided sources, against definitions
modelled from the specification's own words (each such definition carries
a doc comment starting with `Modelled from the spec:`).

The document model: a Graph of nodes and edges with a monotone id
counter, a command protocol with undo/redo history, a serializer, a
clipboard codec, and a playback flag.  Serialized text is modelled as a
stream of tokens (lexing of raw characters is abstracted away).
-/

namespace Noisecraft

/-! ### Association lists used as finite maps -/

/-- Keys of an association list. -/
def keysOf {κ α : Type} (l : List (κ × α)) : List κ := l.map Prod.fst

@[simp] theorem keysOf_nil {κ α : Type} : keysOf ([] : List (κ × α)) = [] := rfl

@[simp] theorem keysOf_cons {κ α : Type} (p : κ × α) (l : List (κ × α)) :
    keysOf (p :: l) = p.1 :: keysOf l := rfl

/-- Lookup in an association list (first binding wins). -/
def alookup {κ α : Type} [DecidableEq κ] (k : κ) : List (κ × α) → Option α
  | [] => none
  | (k2, v) :: rest => if k = k2 then some v else alookup k rest

/-- Insert a binding keeping keys in strictly increasing order. -/
def insertSorted {α : Type} (k : Nat) (v : α) : List (Nat × α) → List (Nat × α)
  | [] => [(k, v)]
  | (k2, w) :: rest =>
    if k < k2 then (k, v) :: (k2, w) :: rest
    else (k2, w) :: insertSorted k v rest

/-- Remove the first binding with the given key. -/
def eraseKey {κ α : Type} [DecidableEq κ] (k : κ) : List (κ × α) → List (κ × α)
  | [] => []
  | (k2, w) :: rest => if k = k2 then rest else (k2, w) :: eraseKey k rest

/-- Replace the value of the first binding with the given key. -/
def updateKey {κ α : Type} [DecidableEq κ] (k : κ) (v : α) : List (κ × α) → List (κ × α)
  | [] => []
  | (k2, w) :: rest => if k = k2 then (k, v) :: rest else (k2, w) :: updateKey k v rest

/-- Keys are strictly increasing (hence pairwise distinct). -/
def SortedKeys {α : Type} (l : List (Nat × α)) : Prop :=
  (keysOf l).Pairwise (fun a b => a < b)

instance {α : Type} (l : List (Nat × α)) : Decidable (SortedKeys l) := by
  unfold SortedKeys; infer_instance

theorem sortedKeys_cons {α : Type} {p : Nat × α} {l : List (Nat × α)} :
    SortedKeys (p :: l) ↔ (∀ b ∈ keysOf l, p.1 < b) ∧ SortedKeys l := by
  unfold SortedKeys
  rw [keysOf_cons, List.pairwise_cons]

theorem alookup_eq_none {κ α : Type} [DecidableEq κ] (k : κ) (l : List (κ × α)) :
    alookup k l = none ↔ k ∉ keysOf l := by
  induction l with
  | nil => simp [alookup, keysOf]
  | cons p rest ih =>
    obtain ⟨k2, v⟩ := p
    by_cases h : k = k2 <;> simp [alookup, keysOf, h] at ih ⊢ <;> simpa [keysOf] using ih

theorem mem_keys_of_alookup {κ α : Type} [DecidableEq κ] {k : κ} {l : List (κ × α)} {v : α}
    (h : alookup k l = some v) : k ∈ keysOf l := by
  by_contra hmem
  rw [← alookup_eq_none k l] at hmem
  rw [hmem] at h
  exact Option.noConfusion h

theorem mem_of_alookup {κ α : Type} [DecidableEq κ] {k : κ} {l : List (κ × α)} {v : α}
    (h : alookup k l = some v) : (k, v) ∈ l := by
  induction l with
  | nil => simp [alookup] at h
  | cons p rest ih =>
    obtain ⟨k2, w⟩ := p
    by_cases hk : k = k2
    · simp [alookup, hk] at h
      simp [hk, h]
    · simp [alookup, hk] at h
      exact List.mem_cons_of_mem _ (ih h)

theorem keysOf_updateKey {κ α : Type} [DecidableEq κ] (k : κ) (v : α) (l : List (κ × α)) :
    keysOf (updateKey k v l) = keysOf l := by
  induction l with
  | nil => rfl
  | cons p rest ih =>
    obtain ⟨k2, w⟩ := p
    by_cases h : k = k2 <;> simp [updateKey, keysOf, h] at ih ⊢ <;> simpa [keysOf] using ih

theorem updateKey_self {κ α : Type} [DecidableEq κ] {k : κ} {l : List (κ × α)} {v : α}
    (h : alookup k l = some v) : updateKey k v l = l := by
  induction l with
  | nil => rfl
  | cons p rest ih =>
    obtain ⟨k2, w⟩ := p
    by_cases hk : k = k2
    · simp [alookup, hk] at h
      simp [updateKey, hk, h]
    · simp [alookup, hk] at h
      simp [updateKey, hk, ih h]

theorem updateKey_updateKey {κ α : Type} [DecidableEq κ] (k : κ) (v w : α) (l : List (κ × α)) :
    updateKey k v (updateKey k w l) = updateKey k v l := by
  induction l with
  | nil => rfl
  | cons p rest ih =>
    obtain ⟨k2, u⟩ := p
    by_cases hk : k = k2
    · simp [updateKey, hk]
    · simp [updateKey, hk, ih]

theorem alookup_updateKey_self {κ α : Type} [DecidableEq κ] {k : κ} {l : List (κ × α)} {w : α}
    (v : α) (h : alookup k l = some w) : alookup k (updateKey k v l) = some v := by
  induction l with
  | nil => simp [alookup] at h
  | cons p rest ih =>
    obtain ⟨k2, u⟩ := p
    by_cases hk : k = k2
    · simp [updateKey, hk, alookup]
    · simp [alookup, hk] at h
      simp [updateKey, hk, alookup, ih h]

theorem mem_updateKey {κ α : Type} [DecidableEq κ] {k : κ} {v : α} {l : List (κ × α)} {p : κ × α}
    (h : p ∈ updateKey k v l) : p = (k, v) ∨ p ∈ l := by
  induction l with
  | nil => simp [updateKey] at h
  | cons q rest ih =>
    obtain ⟨k2, u⟩ := q
    by_cases hk : k = k2
    · simp [updateKey, hk] at h
      rcases h with h | h
      · left; simp [h, hk]
      · right; simp [h]
    · simp [updateKey, hk] at h
      rcases h with h | h
      · right; simp [h]
      · rcases ih h with h2 | h2
        · left; exact h2
        · right; exact List.mem_cons_of_mem _ h2

theorem mem_keys_insertSorted {α : Type} {k2 k : Nat} {v : α} {l : List (Nat × α)} :
    k2 ∈ keysOf (insertSorted k v l) ↔ k2 = k ∨ k2 ∈ keysOf l := by
  induction l with
  | nil => simp [insertSorted]
  | cons p rest ih =>
    obtain ⟨k3, w⟩ := p
    by_cases h : k < k3
    · rw [show insertSorted k v ((k3, w) :: rest) = (k, v) :: (k3, w) :: rest by
        simp [insertSorted, h]]
      simp
    · rw [show insertSorted k v ((k3, w) :: rest) = (k3, w) :: insertSorted k v rest by
        simp [insertSorted, h]]
      simp [ih]
      tauto

theorem mem_insertSorted {α : Type} {k : Nat} {v : α} {l : List (Nat × α)} {p : Nat × α}
    (h : p ∈ insertSorted k v l) : p = (k, v) ∨ p ∈ l := by
  induction l with
  | nil => simpa [insertSorted] using h
  | cons q rest ih =>
    obtain ⟨k3, w⟩ := q
    by_cases hlt : k < k3
    · rw [show insertSorted k v ((k3, w) :: rest) = (k, v) :: (k3, w) :: rest by
        simp [insertSorted, hlt]] at h
      rcases List.mem_cons.mp h with h | h
      · left; exact h
      · right; exact h
    · rw [show insertSorted k v ((k3, w) :: rest) = (k3, w) :: insertSorted k v rest by
        simp [insertSorted, hlt]] at h
      rcases List.mem_cons.mp h with h | h
      · right; simp [h]
      · rcases ih h with h2 | h2
        · left; exact h2
        · right; exact List.mem_cons_of_mem _ h2

theorem alookup_insertSorted_self {α : Type} {k : Nat} {l : List (Nat × α)} (v : α)
    (h : k ∉ keysOf l) : alookup k (insertSorted k v l) = some v := by
  induction l with
  | nil => simp [insertSorted, alookup]
  | cons p rest ih =>
    obtain ⟨k3, w⟩ := p
    simp at h
    push_neg at h
    by_cases hlt : k < k3
    · simp [insertSorted, hlt, alookup]
    · simp [insertSorted, hlt, alookup, h.1]
      exact ih h.2

theorem alookup_insertSorted_ne {α : Type} {k2 k : Nat} {l : List (Nat × α)} (v : α)
    (h : k2 ≠ k) : alookup k2 (insertSorted k v l) = alookup k2 l := by
  induction l with
  | nil => simp [insertSorted, alookup, h]
  | cons p rest ih =>
    obtain ⟨k3, w⟩ := p
    by_cases hlt : k < k3
    · simp [insertSorted, hlt, alookup, h]
    · by_cases hk3 : k2 = k3 <;> simp [insertSorted, hlt, alookup, hk3, ih]

theorem alookup_eraseKey_ne {κ α : Type} [DecidableEq κ] {k2 k : κ} {l : List (κ × α)}
    (h : k2 ≠ k) : alookup k2 (eraseKey k l) = alookup k2 l := by
  induction l with
  | nil => rfl
  | cons p rest ih =>
    obtain ⟨k3, w⟩ := p
    by_cases hk : k = k3
    · subst hk
      simp [eraseKey, alookup, h]
    · by_cases hk3 : k2 = k3 <;> simp [eraseKey, alookup, hk, hk3, ih]

theorem eraseKey_sublist {κ α : Type} [DecidableEq κ] (k : κ) (l : List (κ × α)) :
    (eraseKey k l).Sublist l := by
  induction l with
  | nil => simp [eraseKey]
  | cons p rest ih =>
    obtain ⟨k3, w⟩ := p
    by_cases hk : k = k3
    · simpa [eraseKey, hk] using List.sublist_cons_self (k3, w) rest
    · simpa [eraseKey, hk] using List.Sublist.cons₂ (k3, w) ih

theorem mem_of_mem_eraseKey {κ α : Type} [DecidableEq κ] {k : κ} {l : List (κ × α)} {p : κ × α}
    (h : p ∈ eraseKey k l) : p ∈ l :=
  (eraseKey_sublist k l).subset h

theorem keysOf_eraseKey_sublist {κ α : Type} [DecidableEq κ] (k : κ) (l : List (κ × α)) :
    (keysOf (eraseKey k l)).Sublist (keysOf l) :=
  (eraseKey_sublist k l).map Prod.fst

theorem not_mem_keys_eraseKey {κ α : Type} [DecidableEq κ] {k : κ} {l : List (κ × α)}
    (hnd : (keysOf l).Nodup) : k ∉ keysOf (eraseKey k l) := by
  induction l with
  | nil => simp [eraseKey]
  | cons p rest ih =>
    obtain ⟨k3, w⟩ := p
    rw [keysOf_cons, List.nodup_cons] at hnd
    by_cases hk : k = k3
    · subst hk
      simpa [eraseKey] using hnd.1
    · simp only [eraseKey, if_neg hk, keysOf_cons, List.mem_cons]
      push_neg
      exact ⟨hk, ih hnd.2⟩

theorem nodup_keys_of_sorted {α : Type} {l : List (Nat × α)} (h : SortedKeys l) :
    (keysOf l).Nodup :=
  List.Pairwise.imp (fun hab => Nat.ne_of_lt hab) h

theorem sorted_eraseKey {α : Type} {k : Nat} {l : List (Nat × α)} (h : SortedKeys l) :
    SortedKeys (eraseKey k l) :=
  List.Pairwise.sublist (keysOf_eraseKey_sublist k l) h

theorem sorted_updateKey {α : Type} {l : List (Nat × α)} {k : Nat} {v : α}
    (h : SortedKeys l) : SortedKeys (updateKey k v l) := by
  unfold SortedKeys
  rw [keysOf_updateKey]
  exact h

theorem sorted_insertSorted {α : Type} {k : Nat} {v : α} {l : List (Nat × α)}
    (h : SortedKeys l) (hk : k ∉ keysOf l) : SortedKeys (insertSorted k v l) := by
  induction l with
  | nil => simp [insertSorted, SortedKeys]
  | cons p rest ih =>
    obtain ⟨k3, w⟩ := p
    rw [sortedKeys_cons] at h
    rw [keysOf_cons, List.mem_cons] at hk
    push_neg at hk
    by_cases hlt : k < k3
    · rw [show insertSorted k v ((k3, w) :: rest) = (k, v) :: (k3, w) :: rest by
        simp [insertSorted, hlt]]
      rw [sortedKeys_cons]
      refine ⟨?_, sortedKeys_cons.mpr h⟩
      intro b hb
      rw [keysOf_cons, List.mem_cons] at hb
      rcases hb with hb | hb
      · exact hb ▸ hlt
      · exact lt_trans hlt (h.1 b hb)
    · have hgt : k3 < k := lt_of_le_of_ne (Nat.le_of_not_lt hlt) (fun he => hk.1 he.symm)
      rw [show insertSorted k v ((k3, w) :: rest) = (k3, w) :: insertSorted k v rest by
        simp [insertSorted, hlt]]
      rw [sortedKeys_cons]
      refine ⟨?_, ih h.2 hk.2⟩
      intro b hb
      rcases mem_keys_insertSorted.mp hb with hb | hb
      · exact hb ▸ hgt
      · exact h.1 b hb

theorem eraseKey_insertSorted {α : Type} {k : Nat} (v : α) {l : List (Nat × α)}
    (h : k ∉ keysOf l) : eraseKey k (insertSorted k v l) = l := by
  induction l with
  | nil => simp [insertSorted, eraseKey]
  | cons p rest ih =>
    obtain ⟨k3, w⟩ := p
    rw [keysOf_cons, List.mem_cons] at h
    push_neg at h
    by_cases hlt : k < k3
    · simp [insertSorted, hlt, eraseKey]
    · simp [insertSorted, hlt, eraseKey, h.1, ih h.2]

theorem insertSorted_cons_of_lt {α : Type} {k : Nat} {v : α} {l : List (Nat × α)}
    (h : ∀ k2 ∈ keysOf l, k < k2) : insertSorted k v l = (k, v) :: l := by
  cases l with
  | nil => rfl
  | cons p rest =>
    obtain ⟨k3, w⟩ := p
    have : k < k3 := h k3 (by rw [keysOf_cons]; exact List.mem_cons_self k3 _)
    simp [insertSorted, this]

theorem insertSorted_eraseKey {α : Type} {k : Nat} {v : α} {l : List (Nat × α)}
    (hs : SortedKeys l) (h : alookup k l = some v) :
    insertSorted k v (eraseKey k l) = l := by
  induction l with
  | nil => simp [alookup] at h
  | cons p rest ih =>
    obtain ⟨k3, w⟩ := p
    rw [sortedKeys_cons] at hs
    by_cases hk : k = k3
    · subst hk
      simp [alookup] at h
      subst h
      simp [eraseKey]
      exact insertSorted_cons_of_lt hs.1
    · simp [alookup, hk] at h
      have hmem : k ∈ keysOf rest := mem_keys_of_alookup h
      have hgt : k3 < k := hs.1 k hmem
      have hnlt : ¬ k < k3 := by omega
      simp [eraseKey, hk, insertSorted, hnlt]
      exact ih hs.2 h

/-! ### Data model

Modelled from the spec: the Graph data model of §3 (`model.js` is not among
the provided sources; only its callers in `src/public/main.js` are). -/

/-- Modelled from the spec: a Node has a type tag, a parameter map and a 2D
position (positions and parameter values are modelled as integers). -/
structure Node where
  type : String
  params : List (String × Int)
  pos : Int × Int
deriving DecidableEq

/-- Modelled from the spec: a directed Edge between a source node's output
port and a destination node's input port. -/
structure Edge where
  src : Nat
  srcPort : Nat
  dst : Nat
  dstPort : Nat
deriving DecidableEq

/-- Modelled from the spec: the Graph aggregate — an id-keyed node map, an
id-keyed edge map, and a monotonically increasing id counter. -/
structure Graph where
  nodes : List (Nat × Node)
  edges : List (Nat × Edge)
  nextId : Nat
deriving DecidableEq

def emptyGraph : Graph := { nodes := [], edges := [], nextId := 0 }

/-- Modelled from the spec: atomic structural commands, each carrying the
data needed to apply it and to compute its inverse. -/
inductive SCmd where
  | addNode (nid : Nat) (node : Node)
  | removeNode (nid : Nat)
  | addEdge (eid : Nat) (edge : Edge)
  | removeEdge (eid : Nat)
  | moveNode (nid : Nat) (pos : Int × Int)
  | setParam (nid : Nat) (key : String) (val : Int)
deriving DecidableEq

/-- Id-counter bump demanded by a structural command. -/
def SCmd.bump : SCmd → Nat
  | .addNode nid _ => nid + 1
  | .addEdge eid _ => eid + 1
  | _ => 0

/-- Modelled from the spec: GraphStore validation and mutation on the node
and edge collections (the id counter is handled by `applyStructural`).
Validation rejects unknown ids, duplicate ids, dangling endpoints and an
occupied destination input port (the reject policy of §3/§9); on success
the mutated collections and the inverse command are returned. -/
def applyCore (ns : List (Nat × Node)) (es : List (Nat × Edge)) :
    SCmd → Option (List (Nat × Node) × List (Nat × Edge) × SCmd)
  | .addNode nid node =>
    match alookup nid ns with
    | some _ => none
    | none => some (insertSorted nid node ns, es, .removeNode nid)
  | .removeNode nid =>
    match alookup nid ns with
    | none => none
    | some node =>
      if ∀ p ∈ es, p.2.src ≠ nid ∧ p.2.dst ≠ nid then
        some (eraseKey nid ns, es, .addNode nid node)
      else none
  | .addEdge eid edge =>
    match alookup eid es with
    | some _ => none
    | none =>
      if edge.src ∈ keysOf ns ∧ edge.dst ∈ keysOf ns ∧
          (∀ q ∈ es, ¬(q.2.dst = edge.dst ∧ q.2.dstPort = edge.dstPort)) then
        some (ns, insertSorted eid edge es, .removeEdge eid)
      else none
  | .removeEdge eid =>
    match alookup eid es with
    | none => none
    | some edge => some (ns, eraseKey eid es, .addEdge eid edge)
  | .moveNode nid pos =>
    match alookup nid ns with
    | none => none
    | some node =>
      some (updateKey nid { node with pos := pos } ns, es, .moveNode nid node.pos)
  | .setParam nid key val =>
    match alookup nid ns with
    | none => none
    | some node =>
      match alookup key node.params with
      | none => none
      | some oldv =>
        some (updateKey nid { node with params := updateKey key val node.params } ns, es,
          .setParam nid key oldv)

/-- Modelled from the spec: `applyStructural(command)` — validate against the
current invariants, mutate, return the inverse command; the id counter never
decreases. -/
def applyStructural (g : Graph) (c : SCmd) : Option (Graph × SCmd) :=
  match applyCore g.nodes g.edges c with
  | none => none
  | some (ns, es, inv) => some ({ nodes := ns, edges := es, nextId := max g.nextId c.bump }, inv)

/-- Referential integrity plus canonical (sorted, duplicate-free) key order —
exactly what `deserialize` validates. -/
def Canon (g : Graph) : Prop :=
  SortedKeys g.nodes ∧ SortedKeys g.edges ∧
  (∀ p ∈ g.edges, p.2.src ∈ keysOf g.nodes ∧ p.2.dst ∈ keysOf g.nodes)

/-- Modelled from the spec: the Graph invariants of §3 — no dangling edge, no
duplicate ids, live ids below the id counter, at most one edge per
destination input port. -/
def Wf (g : Graph) : Prop :=
  Canon g ∧
  (∀ k ∈ keysOf g.nodes, k < g.nextId) ∧
  (∀ k ∈ keysOf g.edges, k < g.nextId) ∧
  (∀ p ∈ g.edges, ∀ q ∈ g.edges,
    p.2.dst = q.2.dst → p.2.dstPort = q.2.dstPort → p.1 = q.1)

instance (g : Graph) : Decidable (Canon g) := by
  unfold Canon; infer_instance

instance (g : Graph) : Decidable (Wf g) := by
  unfold Wf; infer_instance

theorem mem_keys_eraseKey_of_ne {κ α : Type} [DecidableEq κ] {k k2 : κ} {l : List (κ × α)}
    (h : k ∈ keysOf l) (hne : k ≠ k2) : k ∈ keysOf (eraseKey k2 l) := by
  induction l with
  | nil => simpa using h
  | cons p rest ih =>
    obtain ⟨k3, w⟩ := p
    rw [keysOf_cons, List.mem_cons] at h
    by_cases hk : k2 = k3
    · subst hk
      rcases h with h | h
      · exact absurd h.symm (by simpa using hne.symm)
      · simpa [eraseKey] using h
    · rcases h with h | h
      · simp [eraseKey, hk, h]
      · simp [eraseKey, hk, ih h]

/-! ### Shape lemmas for `applyCore` -/

theorem applyCore_addNode_elim {ns : List (Nat × Node)} {es : List (Nat × Edge)}
    {nid : Nat} {node : Node} {ns2 es2 inv}
    (h : applyCore ns es (.addNode nid node) = some (ns2, es2, inv)) :
    alookup nid ns = none ∧ ns2 = insertSorted nid node ns ∧ es2 = es ∧
      inv = SCmd.removeNode nid := by
  simp only [applyCore] at h
  split at h
  · cases h
  · rename_i heq
    simp only [Option.some.injEq, Prod.mk.injEq] at h
    exact ⟨heq, h.1.symm, h.2.1.symm, h.2.2.symm⟩

theorem applyCore_removeNode_elim {ns : List (Nat × Node)} {es : List (Nat × Edge)}
    {nid : Nat} {ns2 es2 inv}
    (h : applyCore ns es (.removeNode nid) = some (ns2, es2, inv)) :
    ∃ node, alookup nid ns = some node ∧
      (∀ p ∈ es, p.2.src ≠ nid ∧ p.2.dst ≠ nid) ∧
      ns2 = eraseKey nid ns ∧ es2 = es ∧ inv = SCmd.addNode nid node := by
  simp only [applyCore] at h
  split at h
  · cases h
  · rename_i node heq
    split at h
    · rename_i hc
      simp only [Option.some.injEq, Prod.mk.injEq] at h
      exact ⟨node, heq, hc, h.1.symm, h.2.1.symm, h.2.2.symm⟩
    · cases h

theorem applyCore_addEdge_elim {ns : List (Nat × Node)} {es : List (Nat × Edge)}
    {eid : Nat} {edge : Edge} {ns2 es2 inv}
    (h : applyCore ns es (.addEdge eid edge) = some (ns2, es2, inv)) :
    alookup eid es = none ∧ edge.src ∈ keysOf ns ∧ edge.dst ∈ keysOf ns ∧
      (∀ q ∈ es, ¬(q.2.dst = edge.dst ∧ q.2.dstPort = edge.dstPort)) ∧
      ns2 = ns ∧ es2 = insertSorted eid edge es ∧ inv = SCmd.removeEdge eid := by
  simp only [applyCore] at h
  split at h
  · cases h
  · rename_i heq
    split at h
    · rename_i hc
      simp only [Option.some.injEq, Prod.mk.injEq] at h
      exact ⟨heq, hc.1, hc.2.1, hc.2.2, h.1.symm, h.2.1.symm, h.2.2.symm⟩
    · cases h

theorem applyCore_removeEdge_elim {ns : List (Nat × Node)} {es : List (Nat × Edge)}
    {eid : Nat} {ns2 es2 inv}
    (h : applyCore ns es (.removeEdge eid) = some (ns2, es2, inv)) :
    ∃ edge, alookup eid es = some edge ∧
      ns2 = ns ∧ es2 = eraseKey eid es ∧ inv = SCmd.addEdge eid edge := by
  simp only [applyCore] at h
  split at h
  · cases h
  · rename_i edge heq
    simp only [Option.some.injEq, Prod.mk.injEq] at h
    exact ⟨edge, heq, h.1.symm, h.2.1.symm, h.2.2.symm⟩

theorem applyCore_moveNode_elim {ns : List (Nat × Node)} {es : List (Nat × Edge)}
    {nid : Nat} {pos : Int × Int} {ns2 es2 inv}
    (h : applyCore ns es (.moveNode nid pos) = some (ns2, es2, inv)) :
    ∃ node, alookup nid ns = some node ∧
      ns2 = updateKey nid { node with pos := pos } ns ∧ es2 = es ∧
      inv = SCmd.moveNode nid node.pos := by
  simp only [applyCore] at h
  split at h
  · cases h
  · rename_i node heq
    simp only [Option.some.injEq, Prod.mk.injEq] at h
    exact ⟨node, heq, h.1.symm, h.2.1.symm, h.2.2.symm⟩

theorem applyCore_setParam_elim {ns : List (Nat × Node)} {es : List (Nat × Edge)}
    {nid : Nat} {key : String} {val : Int} {ns2 es2 inv}
    (h : applyCore ns es (.setParam nid key val) = some (ns2, es2, inv)) :
    ∃ node oldv, alookup nid ns = some node ∧ alookup key node.params = some oldv ∧
      ns2 = updateKey nid { node with params := updateKey key val node.params } ns ∧
      es2 = es ∧ inv = SCmd.setParam nid key oldv := by
  simp only [applyCore] at h
  split at h
  · cases h
  · rename_i node heq
    split at h
    · cases h
    · rename_i oldv heq2
      simp only [Option.some.injEq, Prod.mk.injEq] at h
      exact ⟨node, oldv, heq, heq2, h.1.symm, h.2.1.symm, h.2.2.symm⟩

theorem applyCore_addNode_intro {ns : List (Nat × Node)} {es : List (Nat × Edge)}
    {nid : Nat} (node : Node) (h : alookup nid ns = none) :
    applyCore ns es (.addNode nid node) =
      some (insertSorted nid node ns, es, .removeNode nid) := by
  simp only [applyCore, h]

theorem applyCore_removeNode_intro {ns : List (Nat × Node)} {es : List (Nat × Edge)}
    {nid : Nat} {node : Node} (h : alookup nid ns = some node)
    (hc : ∀ p ∈ es, p.2.src ≠ nid ∧ p.2.dst ≠ nid) :
    applyCore ns es (.removeNode nid) = some (eraseKey nid ns, es, .addNode nid node) := by
  simp only [applyCore, h]
  rw [if_pos hc]

theorem applyCore_addEdge_intro {ns : List (Nat × Node)} {es : List (Nat × Edge)}
    {eid : Nat} {edge : Edge} (h : alookup eid es = none)
    (h1 : edge.src ∈ keysOf ns) (h2 : edge.dst ∈ keysOf ns)
    (h3 : ∀ q ∈ es, ¬(q.2.dst = edge.dst ∧ q.2.dstPort = edge.dstPort)) :
    applyCore ns es (.addEdge eid edge) =
      some (ns, insertSorted eid edge es, .removeEdge eid) := by
  simp only [applyCore, h]
  rw [if_pos ⟨h1, h2, h3⟩]

theorem applyCore_removeEdge_intro {ns : List (Nat × Node)} {es : List (Nat × Edge)}
    {eid : Nat} {edge : Edge} (h : alookup eid es = some edge) :
    applyCore ns es (.removeEdge eid) = some (ns, eraseKey eid es, .addEdge eid edge) := by
  simp only [applyCore, h]

theorem applyCore_moveNode_intro {ns : List (Nat × Node)} {es : List (Nat × Edge)}
    {nid : Nat} {node : Node} (pos : Int × Int) (h : alookup nid ns = some node) :
    applyCore ns es (.moveNode nid pos) =
      some (updateKey nid { node with pos := pos } ns, es, .moveNode nid node.pos) := by
  simp only [applyCore, h]

theorem applyCore_setParam_intro {ns : List (Nat × Node)} {es : List (Nat × Edge)}
    {nid : Nat} {node : Node} {key : String} {oldv : Int} (val : Int)
    (h : alookup nid ns = some node) (h2 : alookup key node.params = some oldv) :
    applyCore ns es (.setParam nid key val) =
      some (updateKey nid { node with params := updateKey key val node.params } ns, es,
        .setParam nid key oldv) := by
  simp only [applyCore, h, h2]

/-! ### Preservation of the graph invariants -/

theorem applyCore_sorted {ns : List (Nat × Node)} {es : List (Nat × Edge)} {c : SCmd}
    {ns2 es2 inv} (hsn : SortedKeys ns) (hse : SortedKeys es)
    (h : applyCore ns es c = some (ns2, es2, inv)) : SortedKeys ns2 ∧ SortedKeys es2 := by
  cases c with
  | addNode nid node =>
    obtain ⟨hl, h1, h2, _⟩ := applyCore_addNode_elim h
    subst h1; subst h2
    exact ⟨sorted_insertSorted hsn ((alookup_eq_none _ _).mp hl), hse⟩
  | removeNode nid =>
    obtain ⟨node, hl, hc, h1, h2, _⟩ := applyCore_removeNode_elim h
    subst h1; subst h2
    exact ⟨sorted_eraseKey hsn, hse⟩
  | addEdge eid edge =>
    obtain ⟨hl, _, _, _, h1, h2, _⟩ := applyCore_addEdge_elim h
    subst h1; subst h2
    exact ⟨hsn, sorted_insertSorted hse ((alookup_eq_none _ _).mp hl)⟩
  | removeEdge eid =>
    obtain ⟨edge, hl, h1, h2, _⟩ := applyCore_removeEdge_elim h
    subst h1; subst h2
    exact ⟨hsn, sorted_eraseKey hse⟩
  | moveNode nid pos =>
    obtain ⟨node, hl, h1, h2, _⟩ := applyCore_moveNode_elim h
    subst h1; subst h2
    exact ⟨sorted_updateKey hsn, hse⟩
  | setParam nid key val =>
    obtain ⟨node, oldv, hl, hlp, h1, h2, _⟩ := applyCore_setParam_elim h
    subst h1; subst h2
    exact ⟨sorted_updateKey hsn, hse⟩

theorem applyCore_keys {ns : List (Nat × Node)} {es : List (Nat × Edge)} {c : SCmd}
    {ns2 es2 inv} (h : applyCore ns es c = some (ns2, es2, inv)) :
    (∀ k ∈ keysOf ns2, k ∈ keysOf ns ∨ k + 1 = c.bump) ∧
    (∀ k ∈ keysOf es2, k ∈ keysOf es ∨ k + 1 = c.bump) := by
  cases c with
  | addNode nid node =>
    obtain ⟨hl, h1, h2, _⟩ := applyCore_addNode_elim h
    subst h1; subst h2
    refine ⟨?_, fun k hk => Or.inl hk⟩
    intro k hk
    rcases mem_keys_insertSorted.mp hk with hk | hk
    · right; rw [hk]; rfl
    · left; exact hk
  | removeNode nid =>
    obtain ⟨node, hl, hc, h1, h2, _⟩ := applyCore_removeNode_elim h
    subst h1; subst h2
    exact ⟨fun k hk => Or.inl ((keysOf_eraseKey_sublist _ _).subset hk),
      fun k hk => Or.inl hk⟩
  | addEdge eid edge =>
    obtain ⟨hl, _, _, _, h1, h2, _⟩ := applyCore_addEdge_elim h
    subst h1; subst h2
    refine ⟨fun k hk => Or.inl hk, ?_⟩
    intro k hk
    rcases mem_keys_insertSorted.mp hk with hk | hk
    · right; rw [hk]; rfl
    · left; exact hk
  | removeEdge eid =>
    obtain ⟨edge, hl, h1, h2, _⟩ := applyCore_removeEdge_elim h
    subst h1; subst h2
    exact ⟨fun k hk => Or.inl hk,
      fun k hk => Or.inl ((keysOf_eraseKey_sublist _ _).subset hk)⟩
  | moveNode nid pos =>
    obtain ⟨node, hl, h1, h2, _⟩ := applyCore_moveNode_elim h
    subst h1; subst h2
    rw [keysOf_updateKey]
    exact ⟨fun k hk => Or.inl hk, fun k hk => Or.inl hk⟩
  | setParam nid key val =>
    obtain ⟨node, oldv, hl, hlp, h1, h2, _⟩ := applyCore_setParam_elim h
    subst h1; subst h2
    rw [keysOf_updateKey]
    exact ⟨fun k hk => Or.inl hk, fun k hk => Or.inl hk⟩

theorem applyCore_integrity {ns : List (Nat × Node)} {es : List (Nat × Edge)} {c : SCmd}
    {ns2 es2 inv} (hv : ∀ p ∈ es, p.2.src ∈ keysOf ns ∧ p.2.dst ∈ keysOf ns)
    (h : applyCore ns es c = some (ns2, es2, inv)) :
    ∀ p ∈ es2, p.2.src ∈ keysOf ns2 ∧ p.2.dst ∈ keysOf ns2 := by
  cases c with
  | addNode nid node =>
    obtain ⟨hl, h1, h2, _⟩ := applyCore_addNode_elim h
    subst h1; subst h2
    intro p hp
    exact ⟨mem_keys_insertSorted.mpr (Or.inr (hv p hp).1),
      mem_keys_insertSorted.mpr (Or.inr (hv p hp).2)⟩
  | removeNode nid =>
    obtain ⟨node, hl, hc, h1, h2, _⟩ := applyCore_removeNode_elim h
    subst h1; subst h2
    intro p hp
    exact ⟨mem_keys_eraseKey_of_ne (hv p hp).1 (hc p hp).1,
      mem_keys_eraseKey_of_ne (hv p hp).2 (hc p hp).2⟩
  | addEdge eid edge =>
    obtain ⟨hl, hsrc, hdst, hocc, h1, h2, _⟩ := applyCore_addEdge_elim h
    subst h1; subst h2
    intro p hp
    rcases mem_insertSorted hp with rfl | hp
    · exact ⟨hsrc, hdst⟩
    · exact hv p hp
  | removeEdge eid =>
    obtain ⟨edge, hl, h1, h2, _⟩ := applyCore_removeEdge_elim h
    subst h1; subst h2
    intro p hp
    exact hv p (mem_of_mem_eraseKey hp)
  | moveNode nid pos =>
    obtain ⟨node, hl, h1, h2, _⟩ := applyCore_moveNode_elim h
    subst h1; subst h2
    rw [keysOf_updateKey]
    exact hv
  | setParam nid key val =>
    obtain ⟨node, oldv, hl, hlp, h1, h2, _⟩ := applyCore_setParam_elim h
    subst h1; subst h2
    rw [keysOf_updateKey]
    exact hv

theorem applyCore_portFree {ns : List (Nat × Node)} {es : List (Nat × Edge)} {c : SCmd}
    {ns2 es2 inv}
    (hpf : ∀ p ∈ es, ∀ q ∈ es, p.2.dst = q.2.dst → p.2.dstPort = q.2.dstPort → p.1 = q.1)
    (h : applyCore ns es c = some (ns2, es2, inv)) :
    ∀ p ∈ es2, ∀ q ∈ es2, p.2.dst = q.2.dst → p.2.dstPort = q.2.dstPort → p.1 = q.1 := by
  cases c with
  | addNode nid node =>
    obtain ⟨_, _, h2, _⟩ := applyCore_addNode_elim h
    subst h2; exact hpf
  | removeNode nid =>
    obtain ⟨node, _, _, _, h2, _⟩ := applyCore_removeNode_elim h
    subst h2; exact hpf
  | addEdge eid edge =>
    obtain ⟨hl, _, _, hocc, h1, h2, _⟩ := applyCore_addEdge_elim h
    subst h1; subst h2
    intro p hp q hq hd hdp
    rcases mem_insertSorted hp with rfl | hp
    · rcases mem_insertSorted hq with rfl | hq
      · rfl
      · exact absurd ⟨hd.symm, hdp.symm⟩ (hocc q hq)
    · rcases mem_insertSorted hq with rfl | hq
      · exact absurd ⟨hd, hdp⟩ (hocc p hp)
      · exact hpf p hp q hq hd hdp
  | removeEdge eid =>
    obtain ⟨edge, _, _, h2, _⟩ := applyCore_removeEdge_elim h
    subst h2
    intro p hp q hq hd hdp
    exact hpf p (mem_of_mem_eraseKey hp) q (mem_of_mem_eraseKey hq) hd hdp
  | moveNode nid pos =>
    obtain ⟨node, _, _, h2, _⟩ := applyCore_moveNode_elim h
    subst h2; exact hpf
  | setParam nid key val =>
    obtain ⟨node, oldv, _, _, _, h2, _⟩ := applyCore_setParam_elim h
    subst h2; exact hpf

/-- Applying the inverse command returned by a successful structural
application restores the node and edge collections exactly. -/
theorem applyCore_inverse {ns : List (Nat × Node)} {es : List (Nat × Edge)} {c : SCmd}
    {ns2 es2 inv} (hsn : SortedKeys ns) (hse : SortedKeys es)
    (hv : ∀ p ∈ es, p.2.src ∈ keysOf ns ∧ p.2.dst ∈ keysOf ns)
    (hpf : ∀ p ∈ es, ∀ q ∈ es, p.2.dst = q.2.dst → p.2.dstPort = q.2.dstPort → p.1 = q.1)
    (h : applyCore ns es c = some (ns2, es2, inv)) :
    ∃ c2, applyCore ns2 es2 inv = some (ns, es, c2) := by
  cases c with
  | addNode nid node =>
    obtain ⟨hl, h1, h2, h3⟩ := applyCore_addNode_elim h
    subst h1; subst h2; subst h3
    have hnm : nid ∉ keysOf ns := (alookup_eq_none _ _).mp hl
    refine ⟨SCmd.addNode nid node, ?_⟩
    rw [applyCore_removeNode_intro (alookup_insertSorted_self node hnm)
      (fun p hp => ⟨fun he => hnm (he ▸ (hv p hp).1), fun he => hnm (he ▸ (hv p hp).2)⟩)]
    rw [eraseKey_insertSorted node hnm]
  | removeNode nid =>
    obtain ⟨node, hl, hc, h1, h2, h3⟩ := applyCore_removeNode_elim h
    subst h1; subst h2; subst h3
    have hnone : alookup nid (eraseKey nid ns) = none :=
      (alookup_eq_none _ _).mpr (not_mem_keys_eraseKey (nodup_keys_of_sorted hsn))
    refine ⟨SCmd.removeNode nid, ?_⟩
    rw [applyCore_addNode_intro node hnone, insertSorted_eraseKey hsn hl]
  | addEdge eid edge =>
    obtain ⟨hl, hsrc, hdst, hocc, h1, h2, h3⟩ := applyCore_addEdge_elim h
    subst h1; subst h2; subst h3
    have hnm : eid ∉ keysOf es := (alookup_eq_none _ _).mp hl
    refine ⟨SCmd.addEdge eid edge, ?_⟩
    rw [applyCore_removeEdge_intro (alookup_insertSorted_self edge hnm)]
    rw [eraseKey_insertSorted edge hnm]
  | removeEdge eid =>
    obtain ⟨edge, hl, h1, h2, h3⟩ := applyCore_removeEdge_elim h
    subst h1; subst h2; subst h3
    have hnone : alookup eid (eraseKey eid es) = none :=
      (alookup_eq_none _ _).mpr (not_mem_keys_eraseKey (nodup_keys_of_sorted hse))
    have hmem : (eid, edge) ∈ es := mem_of_alookup hl
    refine ⟨SCmd.removeEdge eid, ?_⟩
    rw [applyCore_addEdge_intro hnone (hv _ hmem).1 (hv _ hmem).2 ?occ]
    · rw [insertSorted_eraseKey hse hl]
    case occ =>
      intro q hq hqe
      have hq2 : q ∈ es := mem_of_mem_eraseKey hq
      have heq : eid = q.1 := hpf (eid, edge) hmem q hq2 hqe.1.symm hqe.2.symm
      have : q.1 ∈ keysOf (eraseKey eid es) := List.mem_map_of_mem Prod.fst hq
      rw [← heq] at this
      exact not_mem_keys_eraseKey (nodup_keys_of_sorted hse) this
  | moveNode nid pos =>
    obtain ⟨node, hl, h1, h2, h3⟩ := applyCore_moveNode_elim h
    subst h1; subst h2; subst h3
    refine ⟨SCmd.moveNode nid pos, ?_⟩
    rw [applyCore_moveNode_intro node.pos (alookup_updateKey_self _ hl)]
    rw [updateKey_updateKey, updateKey_self hl]
  | setParam nid key val =>
    obtain ⟨node, oldv, hl, hlp, h1, h2, h3⟩ := applyCore_setParam_elim h
    obtain ⟨ty, prms, ps⟩ := node
    subst h1; subst h2; subst h3
    refine ⟨SCmd.setParam nid key val, ?_⟩
    have hn2 : alookup nid (updateKey nid ⟨ty, updateKey key val prms, ps⟩ ns)
        = some (⟨ty, updateKey key val prms, ps⟩ : Node) :=
      alookup_updateKey_self _ hl
    have hp2 : alookup key (updateKey key val prms) = some val :=
      alookup_updateKey_self val hlp
    rw [applyCore_setParam_intro oldv hn2 hp2]
    rw [updateKey_updateKey, updateKey_updateKey, updateKey_self hlp, updateKey_self hl]

/-! ### Graph-level lemmas for `applyStructural` -/

theorem applyStructural_elim {g : Graph} {c : SCmd} {g2 : Graph} {inv : SCmd}
    (h : applyStructural g c = some (g2, inv)) :
    applyCore g.nodes g.edges c = some (g2.nodes, g2.edges, inv) ∧
      g2.nextId = max g.nextId c.bump := by
  unfold applyStructural at h
  split at h
  · cases h
  · rename_i ns es inv2 heq
    simp only [Option.some.injEq, Prod.mk.injEq] at h
    obtain ⟨h1, h2⟩ := h
    subst h2
    rw [← h1]
    exact ⟨heq, rfl⟩

theorem applyStructural_intro {g : Graph} {c : SCmd} {ns es inv}
    (h : applyCore g.nodes g.edges c = some (ns, es, inv)) :
    applyStructural g c =
      some ({ nodes := ns, edges := es, nextId := max g.nextId c.bump }, inv) := by
  unfold applyStructural
  rw [h]

theorem applyStructural_mono {g : Graph} {c : SCmd} {g2 : Graph} {inv : SCmd}
    (h : applyStructural g c = some (g2, inv)) : g.nextId ≤ g2.nextId := by
  rw [(applyStructural_elim h).2]
  exact le_max_left _ _

theorem applyStructural_canon {g : Graph} {c : SCmd} {g2 : Graph} {inv : SCmd}
    (hc : Canon g) (h : applyStructural g c = some (g2, inv)) : Canon g2 := by
  obtain ⟨hcore, hnext⟩ := applyStructural_elim h
  obtain ⟨hs1, hs2⟩ := applyCore_sorted hc.1 hc.2.1 hcore
  exact ⟨hs1, hs2, applyCore_integrity hc.2.2 hcore⟩

theorem applyStructural_wf {g : Graph} {c : SCmd} {g2 : Graph} {inv : SCmd}
    (hw : Wf g) (h : applyStructural g c = some (g2, inv)) : Wf g2 := by
  obtain ⟨hcore, hnext⟩ := applyStructural_elim h
  refine ⟨applyStructural_canon hw.1 h, ?_, ?_, applyCore_portFree hw.2.2.2 hcore⟩
  · intro k hk
    rcases (applyCore_keys hcore).1 k hk with hk2 | hk2
    · calc k < g.nextId := hw.2.1 k hk2
        _ ≤ g2.nextId := applyStructural_mono h
    · rw [hnext]
      omega
  · intro k hk
    rcases (applyCore_keys hcore).2 k hk with hk2 | hk2
    · calc k < g.nextId := hw.2.2.1 k hk2
        _ ≤ g2.nextId := applyStructural_mono h
    · rw [hnext]
      omega

/-- Success and the nodes/edges result of a structural application do not
depend on the id counter; a larger counter stays put. -/
theorem applyStructural_nextId_irrel {g : Graph} {c : SCmd} {g2 : Graph} {inv : SCmd}
    (h : applyStructural g c = some (g2, inv)) {n : Nat} (hn : g2.nextId ≤ n) :
    applyStructural { nodes := g.nodes, edges := g.edges, nextId := n } c =
      some ({ nodes := g2.nodes, edges := g2.edges, nextId := n }, inv) := by
  obtain ⟨hcore, hnext⟩ := applyStructural_elim h
  have hb : c.bump ≤ n := by
    have h2 : c.bump ≤ g2.nextId := by
      rw [hnext]
      exact le_max_right _ _
    omega
  have := applyStructural_intro (g := { nodes := g.nodes, edges := g.edges, nextId := n }) hcore
  rw [this]
  have hmax : max n c.bump = n := max_eq_left hb
  rw [hmax]

/-- Applying the returned inverse restores the nodes and edges exactly and
leaves the (monotone) id counter where it is. -/
theorem applyStructural_inverse {g : Graph} {c : SCmd} {g2 : Graph} {inv : SCmd}
    (hw : Wf g) (h : applyStructural g c = some (g2, inv)) :
    ∃ c2, applyStructural g2 inv =
      some ({ nodes := g.nodes, edges := g.edges, nextId := g2.nextId }, c2) := by
  obtain ⟨hcore, hnext⟩ := applyStructural_elim h
  obtain ⟨c2, hinv⟩ :=
    applyCore_inverse hw.1.1 hw.1.2.1 hw.1.2.2 hw.2.2.2 hcore
  refine ⟨c2, ?_⟩
  rw [applyStructural_intro hinv]
  have hb : inv.bump ≤ g2.nextId := by
    cases c with
    | addNode nid node =>
      obtain ⟨_, _, _, h3⟩ := applyCore_addNode_elim hcore
      subst h3
      simp [SCmd.bump]
    | removeNode nid =>
      obtain ⟨node, hl, _, _, _, h3⟩ := applyCore_removeNode_elim hcore
      subst h3
      have : nid < g.nextId := hw.2.1 nid (mem_keys_of_alookup hl)
      calc SCmd.bump (.addNode nid node) = nid + 1 := rfl
        _ ≤ g.nextId := this
        _ ≤ g2.nextId := applyStructural_mono h
    | addEdge eid edge =>
      obtain ⟨_, _, _, _, _, _, h3⟩ := applyCore_addEdge_elim hcore
      subst h3
      simp [SCmd.bump]
    | removeEdge eid =>
      obtain ⟨edge, hl, _, _, h3⟩ := applyCore_removeEdge_elim hcore
      subst h3
      have : eid < g.nextId := hw.2.2.1 eid (mem_keys_of_alookup hl)
      calc SCmd.bump (.addEdge eid edge) = eid + 1 := rfl
        _ ≤ g.nextId := this
        _ ≤ g2.nextId := applyStructural_mono h
    | moveNode nid pos =>
      obtain ⟨node, _, _, _, h3⟩ := applyCore_moveNode_elim hcore
      subst h3
      simp [SCmd.bump]
    | setParam nid key val =>
      obtain ⟨node, oldv, _, _, _, _, h3⟩ := applyCore_setParam_elim hcore
      subst h3
      simp [SCmd.bump]
  rw [max_eq_left hb]

/-! ### Atomic batches of structural commands -/

/-- Modelled from the spec: apply a list of structural commands in order,
collecting the inverse commands in the order that undoes the batch; the
batch fails as a whole if any step fails (all-or-nothing). -/
def applyBatch (g : Graph) : List SCmd → Option (Graph × List SCmd)
  | [] => some (g, [])
  | c :: rest =>
    match applyStructural g c with
    | none => none
    | some (g1, inv) =>
      match applyBatch g1 rest with
      | none => none
      | some (g2, invs) => some (g2, invs ++ [inv])

theorem applyBatch_cons_elim {g : Graph} {c : SCmd} {cs : List SCmd} {g2 : Graph}
    {invs : List SCmd} (h : applyBatch g (c :: cs) = some (g2, invs)) :
    ∃ g1 inv invs1, applyStructural g c = some (g1, inv) ∧
      applyBatch g1 cs = some (g2, invs1) ∧ invs = invs1 ++ [inv] := by
  simp only [applyBatch] at h
  split at h
  · cases h
  · rename_i g1 inv heq
    split at h
    · cases h
    · rename_i g3 invs1 heq2
      simp only [Option.some.injEq, Prod.mk.injEq] at h
      exact ⟨g1, inv, invs1, heq, h.1 ▸ heq2, h.2.symm⟩

theorem applyBatch_mono {cs : List SCmd} :
    ∀ {g g2 : Graph} {invs : List SCmd}, applyBatch g cs = some (g2, invs) →
      g.nextId ≤ g2.nextId := by
  induction cs with
  | nil =>
    intro g g2 invs h
    simp only [applyBatch, Option.some.injEq, Prod.mk.injEq] at h
    rw [← h.1]
  | cons c rest ih =>
    intro g g2 invs h
    obtain ⟨g1, inv, invs1, h1, h2, _⟩ := applyBatch_cons_elim h
    exact le_trans (applyStructural_mono h1) (ih h2)

theorem applyBatch_wf {cs : List SCmd} :
    ∀ {g g2 : Graph} {invs : List SCmd}, Wf g → applyBatch g cs = some (g2, invs) →
      Wf g2 := by
  induction cs with
  | nil =>
    intro g g2 invs hw h
    simp only [applyBatch, Option.some.injEq, Prod.mk.injEq] at h
    rw [← h.1]
    exact hw
  | cons c rest ih =>
    intro g g2 invs hw h
    obtain ⟨g1, inv, invs1, h1, h2, _⟩ := applyBatch_cons_elim h
    exact ih (applyStructural_wf hw h1) h2

theorem applyBatch_canon {cs : List SCmd} :
    ∀ {g g2 : Graph} {invs : List SCmd}, Canon g → applyBatch g cs = some (g2, invs) →
      Canon g2 := by
  induction cs with
  | nil =>
    intro g g2 invs hc h
    simp only [applyBatch, Option.some.injEq, Prod.mk.injEq] at h
    rw [← h.1]
    exact hc
  | cons c rest ih =>
    intro g g2 invs hc h
    obtain ⟨g1, inv, invs1, h1, h2, _⟩ := applyBatch_cons_elim h
    exact ih (applyStructural_canon hc h1) h2

theorem applyBatch_append {as : List SCmd} :
    ∀ {bs : List SCmd} {g g1 g2 : Graph} {i1 i2 : List SCmd},
      applyBatch g as = some (g1, i1) → applyBatch g1 bs = some (g2, i2) →
      applyBatch g (as ++ bs) = some (g2, i2 ++ i1) := by
  induction as with
  | nil =>
    intro bs g g1 g2 i1 i2 h1 h2
    simp only [applyBatch, Option.some.injEq, Prod.mk.injEq] at h1
    obtain ⟨hg, hi⟩ := h1
    subst hg
    subst hi
    simpa using h2
  | cons c rest ih =>
    intro bs g g1 g2 i1 i2 h1 h2
    obtain ⟨ga, inv, invs1, ha, hb, hc⟩ := applyBatch_cons_elim h1
    subst hc
    have hrec : applyBatch ga (rest ++ bs) = some (g2, i2 ++ invs1) := ih hb h2
    rw [List.cons_append]
    simp only [applyBatch, ha]
    rw [hrec]
    show some (g2, i2 ++ invs1 ++ [inv]) = some (g2, i2 ++ (invs1 ++ [inv]))
    rw [List.append_assoc]

theorem applyBatch_nextId_irrel {cs : List SCmd} :
    ∀ {g g2 : Graph} {invs : List SCmd} {n : Nat},
      applyBatch g cs = some (g2, invs) → g2.nextId ≤ n →
      applyBatch { nodes := g.nodes, edges := g.edges, nextId := n } cs =
        some ({ nodes := g2.nodes, edges := g2.edges, nextId := n }, invs) := by
  induction cs with
  | nil =>
    intro g g2 invs n h hn
    simp only [applyBatch, Option.some.injEq, Prod.mk.injEq] at h ⊢
    rw [← h.1, ← h.2]
    exact ⟨rfl, rfl⟩
  | cons c rest ih =>
    intro g g2 invs n h hn
    obtain ⟨g1, inv, invs1, h1, h2, h3⟩ := applyBatch_cons_elim h
    subst h3
    have hstep := applyStructural_nextId_irrel h1 (le_trans (applyBatch_mono h2) hn)
    have hrest := ih h2 hn
    simp only [applyBatch, hstep, hrest]

/-- Undoing a successful batch by applying its inverse list restores the
nodes and edges exactly, with the id counter held at its advanced value. -/
theorem applyBatch_inverse {cs : List SCmd} :
    ∀ {g g2 : Graph} {invs : List SCmd}, Wf g → applyBatch g cs = some (g2, invs) →
      ∃ cs2, applyBatch g2 invs =
        some ({ nodes := g.nodes, edges := g.edges, nextId := g2.nextId }, cs2) := by
  induction cs with
  | nil =>
    intro g g2 invs hw h
    simp only [applyBatch, Option.some.injEq, Prod.mk.injEq] at h
    refine ⟨[], ?_⟩
    rw [← h.1, ← h.2]
    simp [applyBatch]
  | cons c rest ih =>
    intro g g2 invs hw h
    obtain ⟨g1, inv, invs1, h1, h2, h3⟩ := applyBatch_cons_elim h
    subst h3
    have hw1 : Wf g1 := applyStructural_wf hw h1
    obtain ⟨cs2a, hinvs1⟩ := ih hw1 h2
    obtain ⟨c2, hinv⟩ := applyStructural_inverse hw h1
    have hlift := applyStructural_nextId_irrel hinv (n := g2.nextId)
      (by simpa using applyBatch_mono h2)
    have hsingle : applyBatch { nodes := g1.nodes, edges := g1.edges, nextId := g2.nextId }
        [inv] = some ({ nodes := g.nodes, edges := g.edges, nextId := g2.nextId }, [c2]) := by
      simp only [applyBatch, hlift]
      rfl
    exact ⟨[c2] ++ cs2a, applyBatch_append hinvs1 hsingle⟩

/-! ### Clipboard fragments, commands and the document model -/

/-- Center of the bounding box of a list of positions. -/
def bboxCenter (ps : List (Int × Int)) : Int × Int :=
  match ps with
  | [] => (0, 0)
  | p :: rest =>
    let minx := rest.foldl (fun a q => min a q.1) p.1
    let maxx := rest.foldl (fun a q => max a q.1) p.1
    let miny := rest.foldl (fun a q => min a q.2) p.2
    let maxy := rest.foldl (fun a q => max a q.2) p.2
    ((minx + maxx) / 2, (miny + maxy) / 2)

/-- Modelled from the spec: a clipboard fragment — the copied subgraph
carried with internal (non-global) ids. -/
structure Fragment where
  nodes : List (Nat × Node)
  edges : List (Nat × Edge)
deriving DecidableEq

/-- Index of the first occurrence of an element in a list. -/
def idxOf {κ : Type} [DecidableEq κ] (x : κ) : List κ → Nat
  | [] => 0
  | y :: rest => if x = y then 0 else idxOf x rest + 1

/-- Modelled from the spec: `ClipboardCodec.copy(graph, nodeIdSubset)` —
extract the selected nodes plus exactly the edges whose both endpoints lie
in the subset, re-keyed with internal ids (positions in the selection). -/
def copy (g : Graph) (sel : List Nat) : Fragment :=
  { nodes := sel.enum.filterMap (fun p => (alookup p.2 g.nodes).map (fun nd => (p.1, nd))),
    edges := ((g.edges.filter (fun p => sel.contains p.2.src && sel.contains p.2.dst)).enum).map
      (fun q => (q.1, { q.2.2 with src := idxOf q.2.2.src sel, dst := idxOf q.2.2.dst sel })) }

/-- Modelled from the spec: `ClipboardCodec.decode(fragment, anchorPosition)`
— validate the fragment (malformed fragments yield no commands), remap its
internal ids to freshly minted global ids, translate node positions so the
fragment's bounding-box center lands on the anchor, and emit the equivalent
AddNode/AddEdge command sequence. -/
def decodeFragment (g : Graph) (f : Fragment) (anchor : Int × Int) : Option (List SCmd) :=
  if (keysOf f.nodes).Nodup ∧
      (∀ p ∈ f.edges, p.2.src ∈ keysOf f.nodes ∧ p.2.dst ∈ keysOf f.nodes) then
    let base := g.nextId
    let remap : List (Nat × Nat) := f.nodes.enum.map (fun p => (p.2.1, base + p.1))
    let center := bboxCenter (f.nodes.map (fun p => p.2.pos))
    let dx := anchor.1 - center.1
    let dy := anchor.2 - center.2
    some ((f.nodes.enum.map (fun p =>
        SCmd.addNode (base + p.1)
          { p.2.2 with pos := (p.2.2.pos.1 + dx, p.2.2.pos.2 + dy) })) ++
      (f.edges.enum.map (fun q =>
        SCmd.addEdge (base + f.nodes.length + q.1)
          { q.2.2 with src := (alookup q.2.2.src remap).getD 0,
                       dst := (alookup q.2.2.dst remap).getD 0 })))
  else none

/-- Modelled from the spec: GroupNodes — replace a validated node subset by
one composite node with a freshly minted id, removing every incident edge,
as one composite batch (§4.2; the open question of §9 is resolved as
structural-with-reversible-expansion, the reversal living in the inverse
batch of the history entry). -/
def groupCmds (g : Graph) (nids : List Nat) : Option (List SCmd) :=
  if nids ≠ [] ∧ nids.Nodup ∧ (∀ nid ∈ nids, nid ∈ keysOf g.nodes) then
    some (((g.edges.filter (fun p => nids.contains p.2.src || nids.contains p.2.dst)).map
        (fun p => SCmd.removeEdge p.1)) ++
      (nids.map SCmd.removeNode) ++
      [SCmd.addNode g.nextId
        { type := "group", params := [],
          pos := bboxCenter (nids.filterMap (fun nid => (alookup nid g.nodes).map Node.pos)) }])
  else none

/-- Modelled from the spec: a HistoryEntry — the forward command batch and
the inverse batch that undoes it. -/
structure HistoryEntry where
  fwd : List SCmd
  inv : List SCmd
deriving DecidableEq

/-- Modelled from the spec: the document model — the Graph, the undo and redo
stacks, the playback flag, and counters of the PlaybackStarted and
PlaybackStopped notifications emitted at the audio-engine boundary. -/
structure Model where
  graph : Graph
  undoStack : List HistoryEntry
  redoStack : List HistoryEntry
  playing : Bool
  startedCount : Nat
  stoppedCount : Nat
deriving DecidableEq

/-- A fresh blank document model. -/
def initModel : Model :=
  { graph := emptyGraph, undoStack := [], redoStack := [],
    playing := false, startedCount := 0, stoppedCount := 0 }

/-- Modelled from the spec: the user-level command variants of §3; `paste`
carries the clipboard fragment and the anchor position. -/
inductive Cmd where
  | addNode (node : Node)
  | removeNode (nid : Nat)
  | addEdge (src srcPort dst dstPort : Nat)
  | removeEdge (eid : Nat)
  | moveNode (nid : Nat) (pos : Int × Int)
  | setParam (nid : Nat) (key : String) (val : Int)
  | group (nids : List Nat)
  | paste (frag : Fragment) (anchor : Int × Int)
  | play
  | stop
deriving DecidableEq

/-- Structural (historied) commands: everything except Play/Stop. -/
def Cmd.isStructural : Cmd → Prop
  | .addNode _ => True
  | .removeNode _ => True
  | .addEdge _ _ _ _ => True
  | .removeEdge _ => True
  | .moveNode _ _ => True
  | .setParam _ _ _ => True
  | .group _ => True
  | .paste _ _ => True
  | .play => False
  | .stop => False

instance (c : Cmd) : Decidable c.isStructural :=
  match c with
  | .addNode _ => isTrue True.intro
  | .removeNode _ => isTrue True.intro
  | .addEdge _ _ _ _ => isTrue True.intro
  | .removeEdge _ => isTrue True.intro
  | .moveNode _ _ => isTrue True.intro
  | .setParam _ _ _ => isTrue True.intro
  | .group _ => isTrue True.intro
  | .paste _ _ => isTrue True.intro
  | .play => isFalse (fun h => h)
  | .stop => isFalse (fun h => h)

/-- Modelled from the spec: command decoding — structural commands become
singleton batches (adds mint fresh ids from the counter); Paste and
GroupNodes decode to composite batches. -/
def decodeCmd (g : Graph) : Cmd → Option (List SCmd)
  | .addNode node => some [SCmd.addNode g.nextId node]
  | .removeNode nid => some [SCmd.removeNode nid]
  | .addEdge src srcPort dst dstPort =>
    some [SCmd.addEdge g.nextId
      { src := src, srcPort := srcPort, dst := dst, dstPort := dstPort }]
  | .removeEdge eid => some [SCmd.removeEdge eid]
  | .moveNode nid pos => some [SCmd.moveNode nid pos]
  | .setParam nid key val => some [SCmd.setParam nid key val]
  | .group nids => groupCmds g nids
  | .paste frag anchor => decodeFragment g frag anchor
  | .play => none
  | .stop => none

/-- Modelled from the spec: the Play transition — a no-op when already
Playing, otherwise move to Playing and emit one PlaybackStarted. -/
def applyPlay (m : Model) : Model :=
  if m.playing then m
  else { m with playing := true, startedCount := m.startedCount + 1 }

/-- Modelled from the spec: the Stop transition, symmetric to Play. -/
def applyStop (m : Model) : Model :=
  if m.playing then { m with playing := false, stoppedCount := m.stoppedCount + 1 }
  else m

/-- Modelled from the spec: `dispatch(command)` — Play/Stop go to the
playback controller (not historied); every other command is decoded and
applied as one atomic batch recorded as a single HistoryEntry, clearing the
redo stack; on any validation failure the model is left untouched. -/
def dispatch (m : Model) (c : Cmd) : Option Model :=
  match c with
  | .play => some (applyPlay m)
  | .stop => some (applyStop m)
  | _ =>
    match decodeCmd m.graph c with
    | none => none
    | some cs =>
      match applyBatch m.graph cs with
      | none => none
      | some (g2, invs) =>
        some { m with
                graph := g2
                undoStack := { fwd := cs, inv := invs } :: m.undoStack
                redoStack := [] }

/-- Modelled from the spec: undo — pop the most recent history entry, replay
its inverse batch without re-recording, and push the entry on the redo
stack; a no-op on an empty undo stack. -/
def undo (m : Model) : Model :=
  match m.undoStack with
  | [] => m
  | e :: rest =>
    match applyBatch m.graph e.inv with
    | none => m
    | some (g2, _) =>
      { m with
          graph := g2
          undoStack := rest
          redoStack := e :: m.redoStack }

/-- Modelled from the spec: redo — pop the most recent redo entry, replay its
forward batch, and push the entry back on the undo stack. -/
def redo (m : Model) : Model :=
  match m.redoStack with
  | [] => m
  | e :: rest =>
    match applyBatch m.graph e.fwd with
    | none => m
    | some (g2, _) =>
      { m with
          graph := g2
          undoStack := e :: m.undoStack
          redoStack := rest }

/-- Apply a list of commands in order through `dispatch`. -/
def dispatchAll : Model → List Cmd → Option Model
  | m, [] => some m
  | m, c :: rest =>
    match dispatch m c with
    | none => none
    | some m2 => dispatchAll m2 rest

/-- Iterated undo. -/
def undoN : Nat → Model → Model
  | 0, m => m
  | n + 1, m => undoN n (undo m)

/-- Iterated redo. -/
def redoN : Nat → Model → Model
  | 0, m => m
  | n + 1, m => redoN n (redo m)

/-! ### Dispatch lemmas -/

/-- The structural branch of `dispatch`, shared by all historied commands. -/
def dispatchStructural (m : Model) (c : Cmd) : Option Model :=
  match decodeCmd m.graph c with
  | none => none
  | some cs =>
    match applyBatch m.graph cs with
    | none => none
    | some (g2, invs) =>
      some { m with
              graph := g2
              undoStack := { fwd := cs, inv := invs } :: m.undoStack
              redoStack := [] }

theorem dispatch_eq_structural {c : Cmd} (hs : c.isStructural) (m : Model) :
    dispatch m c = dispatchStructural m c := by
  cases c
  case play => exact hs.elim
  case stop => exact hs.elim
  all_goals rfl

theorem dispatchStructural_elim {m : Model} {c : Cmd} {m2 : Model}
    (h : dispatchStructural m c = some m2) :
    ∃ cs g2 invs, decodeCmd m.graph c = some cs ∧
      applyBatch m.graph cs = some (g2, invs) ∧
      m2 = { m with
              graph := g2
              undoStack := { fwd := cs, inv := invs } :: m.undoStack
              redoStack := [] } := by
  unfold dispatchStructural at h
  split at h
  · cases h
  · rename_i cs hdec
    split at h
    · cases h
    · rename_i g2 invs happ
      simp only [Option.some.injEq] at h
      exact ⟨cs, g2, invs, hdec, happ, h.symm⟩

theorem applyPlay_graph (m : Model) : (applyPlay m).graph = m.graph := by
  unfold applyPlay
  split <;> rfl

theorem applyStop_graph (m : Model) : (applyStop m).graph = m.graph := by
  unfold applyStop
  split <;> rfl

theorem dispatch_wf {m : Model} {c : Cmd} {m2 : Model}
    (hw : Wf m.graph) (h : dispatch m c = some m2) : Wf m2.graph := by
  cases c
  case play =>
    simp only [dispatch, Option.some.injEq] at h
    rw [← h, applyPlay_graph]
    exact hw
  case stop =>
    simp only [dispatch, Option.some.injEq] at h
    rw [← h, applyStop_graph]
    exact hw
  all_goals {
    rw [dispatch_eq_structural (by exact True.intro) m] at h
    obtain ⟨cs, g2, invs, hdec, happ, hm2⟩ := dispatchStructural_elim h
    subst hm2
    exact applyBatch_wf hw happ
  }

theorem dispatch_mono {m : Model} {c : Cmd} {m2 : Model}
    (h : dispatch m c = some m2) : m.graph.nextId ≤ m2.graph.nextId := by
  cases c
  case play =>
    simp only [dispatch, Option.some.injEq] at h
    rw [← h, applyPlay_graph]
  case stop =>
    simp only [dispatch, Option.some.injEq] at h
    rw [← h, applyStop_graph]
  all_goals {
    rw [dispatch_eq_structural (by exact True.intro) m] at h
    obtain ⟨cs, g2, invs, hdec, happ, hm2⟩ := dispatchStructural_elim h
    subst hm2
    exact applyBatch_mono happ
  }

theorem undo_wf {m : Model} (hw : Wf m.graph) : Wf (undo m).graph := by
  unfold undo
  split
  · exact hw
  · split
    · exact hw
    · rename_i e rest g2 p happ
      exact applyBatch_wf hw happ

theorem redo_wf {m : Model} (hw : Wf m.graph) : Wf (redo m).graph := by
  unfold redo
  split
  · exact hw
  · split
    · exact hw
    · rename_i e rest g2 p happ
      exact applyBatch_wf hw happ

theorem undo_mono (m : Model) : m.graph.nextId ≤ (undo m).graph.nextId := by
  unfold undo
  split
  · exact le_refl _
  · split
    · exact le_refl _
    · rename_i e rest g2 p happ
      exact applyBatch_mono happ

theorem redo_mono (m : Model) : m.graph.nextId ≤ (redo m).graph.nextId := by
  unfold redo
  split
  · exact le_refl _
  · split
    · exact le_refl _
    · rename_i e rest g2 p happ
      exact applyBatch_mono happ

/-- Undoing immediately after a successful structural dispatch pops the one
new history entry and restores the nodes and edges exactly (the id counter
stays advanced). -/
theorem undo_dispatch {m : Model} {c : Cmd} {m2 : Model} (hw : Wf m.graph)
    (hs : c.isStructural) (h : dispatch m c = some m2) :
    ∃ e, m2.undoStack = e :: m.undoStack ∧ m2.redoStack = [] ∧
      m2.playing = m.playing ∧ m2.startedCount = m.startedCount ∧
      m2.stoppedCount = m.stoppedCount ∧
      undo m2 = { m2 with
        graph := { nodes := m.graph.nodes, edges := m.graph.edges,
                   nextId := m2.graph.nextId }
        undoStack := m.undoStack
        redoStack := [e] } := by
  rw [dispatch_eq_structural hs] at h
  obtain ⟨cs, g2, invs, hdec, happ, hm2⟩ := dispatchStructural_elim h
  subst hm2
  obtain ⟨cs2, hinv⟩ := applyBatch_inverse hw happ
  refine ⟨⟨cs, invs⟩, rfl, rfl, rfl, rfl, rfl, ?_⟩
  simp only [undo, hinv]

theorem dispatchAll_cons_elim {m0 : Model} {c : Cmd} {cs : List Cmd} {m : Model}
    (h : dispatchAll m0 (c :: cs) = some m) :
    ∃ m1, dispatch m0 c = some m1 ∧ dispatchAll m1 cs = some m := by
  simp only [dispatchAll] at h
  split at h
  · cases h
  · rename_i m1 hd
    exact ⟨m1, hd, h⟩

theorem dispatchAll_mono {cs : List Cmd} :
    ∀ {m0 m : Model}, dispatchAll m0 cs = some m →
      m0.graph.nextId ≤ m.graph.nextId := by
  induction cs with
  | nil =>
    intro m0 m h
    simp only [dispatchAll, Option.some.injEq] at h
    subst h
    exact le_refl _
  | cons c rest ih =>
    intro m0 m h
    obtain ⟨m1, hd, hrest⟩ := dispatchAll_cons_elim h
    exact le_trans (dispatch_mono hd) (ih hrest)

theorem dispatchAll_wf {cs : List Cmd} :
    ∀ {m0 m : Model}, Wf m0.graph → dispatchAll m0 cs = some m → Wf m.graph := by
  induction cs with
  | nil =>
    intro m0 m hw h
    simp only [dispatchAll, Option.some.injEq] at h
    subst h
    exact hw
  | cons c rest ih =>
    intro m0 m hw h
    obtain ⟨m1, hd, hrest⟩ := dispatchAll_cons_elim h
    exact ih (dispatch_wf hw hd) hrest

theorem undoN_outer (n : Nat) : ∀ m : Model, undoN (n + 1) m = undo (undoN n m) := by
  induction n with
  | zero => intro m; rfl
  | succ k ih =>
    intro m
    show undoN (k + 1) (undo m) = undo (undoN (k + 1) m)
    rw [ih (undo m)]
    rfl

theorem undo_mk {gr : Graph} {fcs ics : List SCmd} {us rs : List HistoryEntry}
    {p : Bool} {sc tc : Nat} {g2 : Graph} {cs2 : List SCmd}
    (happ : applyBatch gr ics = some (g2, cs2)) :
    undo ⟨gr, ⟨fcs, ics⟩ :: us, rs, p, sc, tc⟩ = ⟨g2, us, ⟨fcs, ics⟩ :: rs, p, sc, tc⟩ := by
  simp only [undo, happ]

theorem redo_mk {gr : Graph} {fcs ics : List SCmd} {us rs : List HistoryEntry}
    {p : Bool} {sc tc : Nat} {g2 : Graph} {cs2 : List SCmd}
    (happ : applyBatch gr fcs = some (g2, cs2)) :
    redo ⟨gr, us, ⟨fcs, ics⟩ :: rs, p, sc, tc⟩ = ⟨g2, ⟨fcs, ics⟩ :: us, rs, p, sc, tc⟩ := by
  simp only [redo, happ]

/-- The undo/redo inverse law for a structural command sequence: from any
well-formed starting model, n undos restore the starting nodes, edges and
history (the id counter stays advanced), and n redos after that restore the
final model exactly. -/
theorem undoN_redoN_main (cs : List Cmd) :
    ∀ {m0 m : Model}, Wf m0.graph → (∀ c ∈ cs, c.isStructural) →
      dispatchAll m0 cs = some m →
      ∃ es : List HistoryEntry,
        undoN cs.length m = { m with
            graph := { nodes := m0.graph.nodes, edges := m0.graph.edges,
                       nextId := m.graph.nextId }
            undoStack := m0.undoStack
            redoStack := es ++ m.redoStack } ∧
        redoN cs.length { m with
            graph := { nodes := m0.graph.nodes, edges := m0.graph.edges,
                       nextId := m.graph.nextId }
            undoStack := m0.undoStack
            redoStack := es ++ m.redoStack } = m := by
  induction cs with
  | nil =>
    intro m0 m hw hs h
    simp only [dispatchAll, Option.some.injEq] at h
    subst h
    exact ⟨[], rfl, rfl⟩
  | cons c rest ih =>
    intro m0 m hw hs h
    obtain ⟨m1, hd, hrest⟩ := dispatchAll_cons_elim h
    have hw1 : Wf m1.graph := dispatch_wf hw hd
    obtain ⟨es, hu, hr⟩ := ih hw1 (fun c2 hc2 => hs c2 (List.mem_cons_of_mem c hc2)) hrest
    have hsc : c.isStructural := hs c (List.mem_cons_self c rest)
    rw [dispatch_eq_structural hsc] at hd
    obtain ⟨cs1, g1, invs1, hdec, happ, hm1⟩ := dispatchStructural_elim hd
    obtain ⟨cs2, hinv⟩ := applyBatch_inverse hw happ
    have hg1le : g1.nextId ≤ m.graph.nextId := by
      have h2 := dispatchAll_mono hrest
      rw [hm1] at h2
      exact h2
    have hinvLift := applyBatch_nextId_irrel hinv hg1le
    have hfwdLift := applyBatch_nextId_irrel happ hg1le
    subst hm1
    simp only at hu hr hinvLift hfwdLift
    refine ⟨⟨cs1, invs1⟩ :: es, ?_, ?_⟩
    · rw [List.length_cons, undoN_outer, hu]
      obtain ⟨gm, um, rm, pm, scm, tcm⟩ := m
      simp only [List.cons_append]
      rw [undo_mk hinvLift]
    · rw [List.length_cons]
      show redoN rest.length (redo _) = m
      obtain ⟨gm, um, rm, pm, scm, tcm⟩ := m
      simp only [List.cons_append]
      rw [redo_mk hfwdLift]
      exact hr

/-! ### Serializer

Modelled from the spec: the serialized document is a deterministic,
self-describing token stream (schema marker and version first, stable key
order); the deserializer parses it and validates referential integrity and
duplicate-free, canonically ordered ids, rejecting everything else. -/

/-- One token of the serialized text. -/
inductive SToken where
  | nat (n : Nat)
  | int (i : Int)
  | str (s : String)
deriving DecidableEq

/-- Serialize a parameter list. -/
def serParams : List (String × Int) → List SToken
  | [] => []
  | (k, v) :: rest => .str k :: .int v :: serParams rest

/-- Parse `n` parameters. -/
def parseParams : Nat → List SToken → Option (List (String × Int) × List SToken)
  | 0, ts => some ([], ts)
  | n + 1, .str k :: .int v :: ts =>
    match parseParams n ts with
    | none => none
    | some (ps, rest) => some ((k, v) :: ps, rest)
  | _ + 1, _ => none

/-- Serialize one node entry. -/
def serNodeEntry (p : Nat × Node) : List SToken :=
  .nat p.1 :: .str p.2.type :: .nat p.2.params.length ::
    (serParams p.2.params ++ [.int p.2.pos.1, .int p.2.pos.2])

/-- Parse one node entry. -/
def parseNodeEntry : List SToken → Option ((Nat × Node) × List SToken)
  | .nat nid :: .str ty :: .nat np :: ts =>
    match parseParams np ts with
    | none => none
    | some (ps, rest) =>
      match rest with
      | .int x :: .int y :: rest2 =>
        some ((nid, { type := ty, params := ps, pos := (x, y) }), rest2)
      | _ => none
  | _ => none

/-- Serialize the node list. -/
def serNodes : List (Nat × Node) → List SToken
  | [] => []
  | p :: rest => serNodeEntry p ++ serNodes rest

/-- Parse `n` node entries. -/
def parseNodes : Nat → List SToken → Option (List (Nat × Node) × List SToken)
  | 0, ts => some ([], ts)
  | n + 1, ts =>
    match parseNodeEntry ts with
    | none => none
    | some (p, rest) =>
      match parseNodes n rest with
      | none => none
      | some (ps, rest2) => some (p :: ps, rest2)

/-- Serialize one edge entry. -/
def serEdgeEntry (p : Nat × Edge) : List SToken :=
  [.nat p.1, .nat p.2.src, .nat p.2.srcPort, .nat p.2.dst, .nat p.2.dstPort]

/-- Parse one edge entry. -/
def parseEdgeEntry : List SToken → Option ((Nat × Edge) × List SToken)
  | .nat eid :: .nat s :: .nat sp :: .nat d :: .nat dp :: ts =>
    some ((eid, { src := s, srcPort := sp, dst := d, dstPort := dp }), ts)
  | _ => none

/-- Serialize the edge list. -/
def serEdges : List (Nat × Edge) → List SToken
  | [] => []
  | p :: rest => serEdgeEntry p ++ serEdges rest

/-- Parse `n` edge entries. -/
def parseEdges : Nat → List SToken → Option (List (Nat × Edge) × List SToken)
  | 0, ts => some ([], ts)
  | n + 1, ts =>
    match parseEdgeEntry ts with
    | none => none
    | some (p, rest) =>
      match parseEdges n rest with
      | none => none
      | some (ps, rest2) => some (p :: ps, rest2)

/-- Modelled from the spec: `serialize(graph)` — schema marker, version,
then every node and edge with full attributes and finally the id counter. -/
def serialize (g : Graph) : List SToken :=
  .str "noisecraft" :: .nat 1 :: .nat g.nodes.length ::
    (serNodes g.nodes ++
      (.nat g.edges.length :: (serEdges g.edges ++ [.nat g.nextId])))

/-- Parse a whole serialized graph (without semantic validation). -/
def parseGraph (ts : List SToken) : Option Graph :=
  match ts with
  | .str magic :: .nat ver :: .nat nn :: ts2 =>
    if magic = "noisecraft" ∧ ver = 1 then
      match parseNodes nn ts2 with
      | none => none
      | some (ns, ts3) =>
        match ts3 with
        | .nat ne :: ts4 =>
          match parseEdges ne ts4 with
          | none => none
          | some (es, ts5) =>
            match ts5 with
            | [.nat next] => some { nodes := ns, edges := es, nextId := next }
            | _ => none
        | _ => none
    else none
  | _ => none

/-- Modelled from the spec: `deserialize(text)` — parse, then validate
referential integrity and duplicate-free canonical id order; any syntactic
or structural violation yields `none` (the FormatError signal). -/
def deserialize (ts : List SToken) : Option Graph :=
  match parseGraph ts with
  | none => none
  | some g => if Canon g then some g else none

theorem parseParams_serParams (ps : List (String × Int)) (rest : List SToken) :
    parseParams ps.length (serParams ps ++ rest) = some (ps, rest) := by
  induction ps with
  | nil => rfl
  | cons p tail ih =>
    obtain ⟨k, v⟩ := p
    have ih2 : parseParams tail.length ((serParams tail).append rest) = some (tail, rest) := ih
    simp only [serParams, List.length_cons, List.cons_append, parseParams]
    rw [ih2]

theorem parseNodeEntry_ser (p : Nat × Node) (rest : List SToken) :
    parseNodeEntry (serNodeEntry p ++ rest) = some (p, rest) := by
  obtain ⟨nid, nd⟩ := p
  obtain ⟨ty, ps, pos⟩ := nd
  obtain ⟨x, y⟩ := pos
  simp only [serNodeEntry, List.cons_append, List.append_assoc, List.nil_append,
    parseNodeEntry]
  rw [parseParams_serParams]

theorem parseNodes_serNodes (l : List (Nat × Node)) (rest : List SToken) :
    parseNodes l.length (serNodes l ++ rest) = some (l, rest) := by
  induction l with
  | nil => rfl
  | cons p tail ih =>
    simp only [serNodes, List.length_cons, List.append_assoc, parseNodes,
      parseNodeEntry_ser, ih]

theorem parseEdgeEntry_ser (p : Nat × Edge) (rest : List SToken) :
    parseEdgeEntry (serEdgeEntry p ++ rest) = some (p, rest) := by
  obtain ⟨eid, e⟩ := p
  obtain ⟨s, sp, d, dp⟩ := e
  rfl

theorem parseEdges_serEdges (l : List (Nat × Edge)) (rest : List SToken) :
    parseEdges l.length (serEdges l ++ rest) = some (l, rest) := by
  induction l with
  | nil => rfl
  | cons p tail ih =>
    simp only [serEdges, List.length_cons, List.append_assoc, parseEdges,
      parseEdgeEntry_ser, ih]

theorem parseGraph_serialize (g : Graph) : parseGraph (serialize g) = some g := by
  obtain ⟨ns, es, next⟩ := g
  simp only [serialize, parseGraph]
  rw [if_pos (show True ∧ True from ⟨trivial, trivial⟩)]
  rw [parseNodes_serNodes]
  simp [parseEdges_serEdges]

/-- Round trip at the parser level: the token stream produced by `serialize`
parses back to the same graph; `deserialize` then accepts it whenever the
graph satisfies the validated invariants. -/
theorem deserialize_serialize {g : Graph} (h : Canon g) :
    deserialize (serialize g) = some g := by
  simp only [deserialize, parseGraph_serialize, if_pos h]

theorem deserialize_canon {ts : List SToken} {g : Graph}
    (h : deserialize ts = some g) : Canon g := by
  unfold deserialize at h
  split at h
  · cases h
  · split at h
    · rename_i hc
      simp only [Option.some.injEq] at h
      subst h
      exact hc
    · cases h

/-! ### Session operations and freshly minted ids -/

/-- One user-level operation of a session: dispatch a command, undo, redo. -/
inductive Op where
  | exec (c : Cmd)
  | undoOp
  | redoOp
deriving DecidableEq

/-- Execute one operation. -/
def stepOp (m : Model) : Op → Option Model
  | .exec c => dispatch m c
  | .undoOp => some (undo m)
  | .redoOp => some (redo m)

/-- Ids freshly assigned by the add commands of a decoded batch. -/
def mintsOfBatch (cs : List SCmd) : List Nat :=
  cs.filterMap (fun c =>
    match c with
    | .addNode nid _ => some nid
    | .addEdge eid _ => some eid
    | _ => none)

/-- Ids an operation mints when it succeeds (undo and redo replay recorded
commands and mint nothing). -/
def opMints (m : Model) : Op → List Nat
  | .exec c =>
    match c with
    | .play => []
    | .stop => []
    | _ =>
      match decodeCmd m.graph c with
      | none => []
      | some cs => mintsOfBatch cs
  | .undoOp => []
  | .redoOp => []

/-- Run a list of operations, logging every minted id in order. -/
def runLog (m : Model) : List Op → Option (Model × List Nat)
  | [] => some (m, [])
  | op :: rest =>
    match stepOp m op with
    | none => none
    | some m2 =>
      match runLog m2 rest with
      | none => none
      | some (mf, log) => some (mf, opMints m op ++ log)

/-- The add/remove/undo/redo operations of the id-uniqueness claim. -/
def Op.isChurn : Op → Prop
  | .exec (Cmd.addNode _) => True
  | .exec (Cmd.addEdge _ _ _ _) => True
  | .exec (Cmd.removeNode _) => True
  | .exec (Cmd.removeEdge _) => True
  | .undoOp => True
  | .redoOp => True
  | _ => False

theorem applyBatch_bump_le {cs : List SCmd} :
    ∀ {g g2 : Graph} {invs : List SCmd}, applyBatch g cs = some (g2, invs) →
      ∀ c ∈ cs, c.bump ≤ g2.nextId := by
  induction cs with
  | nil =>
    intro g g2 invs h c hc
    simp at hc
  | cons c0 rest ih =>
    intro g g2 invs h c hc
    obtain ⟨g1, inv, invs1, h1, h2, _⟩ := applyBatch_cons_elim h
    rcases List.mem_cons.mp hc with hc | hc
    · subst hc
      have hb : c.bump ≤ g1.nextId := by
        rw [(applyStructural_elim h1).2]
        exact le_max_right _ _
      exact le_trans hb (applyBatch_mono h2)
    · exact ih h2 c hc

theorem runLog_cons_elim {m : Model} {op : Op} {ops : List Op} {mf : Model}
    {log : List Nat} (h : runLog m (op :: ops) = some (mf, log)) :
    ∃ m2 log2, stepOp m op = some m2 ∧ runLog m2 ops = some (mf, log2) ∧
      log = opMints m op ++ log2 := by
  simp only [runLog] at h
  split at h
  · cases h
  · rename_i m2 hstep
    split at h
    · cases h
    · rename_i mf2 log2 hrun
      simp only [Option.some.injEq, Prod.mk.injEq] at h
      exact ⟨m2, log2, hstep, h.1 ▸ hrun, h.2.symm⟩

/-- Invariant of a churn session (add/remove/undo/redo): well-formedness is
preserved, the id counter never decreases, every minted id lies in the
counter window of its step, and the log of minted ids is strictly
increasing (hence duplicate-free). -/
theorem runLog_churn (ops : List Op) :
    ∀ {m mf : Model} {log : List Nat}, Wf m.graph → (∀ op ∈ ops, op.isChurn) →
      runLog m ops = some (mf, log) →
      Wf mf.graph ∧ m.graph.nextId ≤ mf.graph.nextId ∧
      (∀ i ∈ log, m.graph.nextId ≤ i ∧ i < mf.graph.nextId) ∧
      log.Pairwise (fun a b => a < b) := by
  induction ops with
  | nil =>
    intro m mf log hw hch h
    simp only [runLog, Option.some.injEq, Prod.mk.injEq] at h
    obtain ⟨h1, h2⟩ := h
    subst h1; subst h2
    exact ⟨hw, le_refl _, by simp, List.Pairwise.nil⟩
  | cons op rest ih =>
    intro m mf log hw hch h
    obtain ⟨m2, log2, hstep, hrun, hlog⟩ := runLog_cons_elim h
    subst hlog
    have hch0 := hch op (List.mem_cons_self op rest)
    have hchr : ∀ o ∈ rest, o.isChurn := fun o ho => hch o (List.mem_cons_of_mem op ho)
    cases op with
    | undoOp =>
      simp only [stepOp, Option.some.injEq] at hstep
      subst hstep
      obtain ⟨hwf, hmono, hbound, hpw⟩ := ih (undo_wf hw) hchr hrun
      refine ⟨hwf, le_trans (undo_mono m) hmono, ?_, ?_⟩
      · intro i hi
        simp only [opMints, List.nil_append] at hi
        obtain ⟨h1, h2⟩ := hbound i hi
        exact ⟨le_trans (undo_mono m) h1, h2⟩
      · simpa [opMints] using hpw
    | redoOp =>
      simp only [stepOp, Option.some.injEq] at hstep
      subst hstep
      obtain ⟨hwf, hmono, hbound, hpw⟩ := ih (redo_wf hw) hchr hrun
      refine ⟨hwf, le_trans (redo_mono m) hmono, ?_, ?_⟩
      · intro i hi
        simp only [opMints, List.nil_append] at hi
        obtain ⟨h1, h2⟩ := hbound i hi
        exact ⟨le_trans (redo_mono m) h1, h2⟩
      · simpa [opMints] using hpw
    | exec c =>
      cases c with
      | play => exact hch0.elim
      | stop => exact hch0.elim
      | group nids => exact hch0.elim
      | paste frag anchor => exact hch0.elim
      | moveNode nid pos => exact hch0.elim
      | setParam nid key val => exact hch0.elim
      | removeNode nid =>
        simp only [stepOp] at hstep
        have hw2 : Wf m2.graph := dispatch_wf hw hstep
        have hm : m.graph.nextId ≤ m2.graph.nextId := dispatch_mono hstep
        obtain ⟨hwf, hmono, hbound, hpw⟩ := ih hw2 hchr hrun
        have hom : opMints m (Op.exec (Cmd.removeNode nid)) = [] := rfl
        refine ⟨hwf, le_trans hm hmono, ?_, ?_⟩
        · intro i hi
          rw [hom, List.nil_append] at hi
          obtain ⟨h1, h2⟩ := hbound i hi
          exact ⟨le_trans hm h1, h2⟩
        · rw [hom, List.nil_append]
          exact hpw
      | removeEdge eid =>
        simp only [stepOp] at hstep
        have hw2 : Wf m2.graph := dispatch_wf hw hstep
        have hm : m.graph.nextId ≤ m2.graph.nextId := dispatch_mono hstep
        obtain ⟨hwf, hmono, hbound, hpw⟩ := ih hw2 hchr hrun
        have hom : opMints m (Op.exec (Cmd.removeEdge eid)) = [] := rfl
        refine ⟨hwf, le_trans hm hmono, ?_, ?_⟩
        · intro i hi
          rw [hom, List.nil_append] at hi
          obtain ⟨h1, h2⟩ := hbound i hi
          exact ⟨le_trans hm h1, h2⟩
        · rw [hom, List.nil_append]
          exact hpw
      | addNode node =>
        simp only [stepOp] at hstep
        have hw2 : Wf m2.graph := dispatch_wf hw hstep
        rw [dispatch_eq_structural
          (show (Cmd.addNode node).isStructural from True.intro) m] at hstep
        obtain ⟨cs, g2, invs, hdec, happ, hm2⟩ := dispatchStructural_elim hstep
        have hcs : cs = [SCmd.addNode m.graph.nextId node] := by
          have heq : decodeCmd m.graph (Cmd.addNode node) =
              some [SCmd.addNode m.graph.nextId node] := rfl
          rw [heq] at hdec
          exact (Option.some.inj hdec).symm
        subst hcs
        have hg : m2.graph = g2 := by rw [hm2]
        have hmlt : m.graph.nextId < m2.graph.nextId := by
          have hb := applyBatch_bump_le happ (SCmd.addNode m.graph.nextId node)
            (List.mem_singleton.mpr rfl)
          rw [hg]
          simp only [SCmd.bump] at hb
          omega
        obtain ⟨hwf, hmono, hbound, hpw⟩ := ih hw2 hchr hrun
        have hom : opMints m (Op.exec (Cmd.addNode node)) = [m.graph.nextId] := rfl
        refine ⟨hwf, le_trans (le_of_lt hmlt) hmono, ?_, ?_⟩
        · intro i hi
          rw [hom] at hi
          rcases List.mem_append.mp hi with hi | hi
          · rw [List.mem_singleton.mp hi]
            exact ⟨le_refl _, lt_of_lt_of_le hmlt hmono⟩
          · obtain ⟨h1, h2⟩ := hbound i hi
            exact ⟨le_trans (le_of_lt hmlt) h1, h2⟩
        · rw [hom, List.singleton_append]
          exact List.pairwise_cons.mpr
            ⟨fun b hb => lt_of_lt_of_le hmlt (hbound b hb).1, hpw⟩
      | addEdge s sp d dp =>
        simp only [stepOp] at hstep
        have hw2 : Wf m2.graph := dispatch_wf hw hstep
        rw [dispatch_eq_structural
          (show (Cmd.addEdge s sp d dp).isStructural from True.intro) m] at hstep
        obtain ⟨cs, g2, invs, hdec, happ, hm2⟩ := dispatchStructural_elim hstep
        have hcs : cs = [SCmd.addEdge m.graph.nextId
            { src := s, srcPort := sp, dst := d, dstPort := dp }] := by
          have heq : decodeCmd m.graph (Cmd.addEdge s sp d dp) =
              some [SCmd.addEdge m.graph.nextId
                { src := s, srcPort := sp, dst := d, dstPort := dp }] := rfl
          rw [heq] at hdec
          exact (Option.some.inj hdec).symm
        subst hcs
        have hg : m2.graph = g2 := by rw [hm2]
        have hmlt : m.graph.nextId < m2.graph.nextId := by
          have hb := applyBatch_bump_le happ (SCmd.addEdge m.graph.nextId
            { src := s, srcPort := sp, dst := d, dstPort := dp })
            (List.mem_singleton.mpr rfl)
          rw [hg]
          simp only [SCmd.bump] at hb
          omega
        obtain ⟨hwf, hmono, hbound, hpw⟩ := ih hw2 hchr hrun
        have hom : opMints m (Op.exec (Cmd.addEdge s sp d dp)) = [m.graph.nextId] := rfl
        refine ⟨hwf, le_trans (le_of_lt hmlt) hmono, ?_, ?_⟩
        · intro i hi
          rw [hom] at hi
          rcases List.mem_append.mp hi with hi | hi
          · rw [List.mem_singleton.mp hi]
            exact ⟨le_refl _, lt_of_lt_of_le hmlt hmono⟩
          · obtain ⟨h1, h2⟩ := hbound i hi
            exact ⟨le_trans (le_of_lt hmlt) h1, h2⟩
        · rw [hom, List.singleton_append]
          exact List.pairwise_cons.mpr
            ⟨fun b hb => lt_of_lt_of_le hmlt (hbound b hb).1, hpw⟩

/-! ### New document, import, and reachability -/

theorem dispatch_canon {m : Model} {c : Cmd} {m2 : Model}
    (hc : Canon m.graph) (h : dispatch m c = some m2) : Canon m2.graph := by
  cases c
  case play =>
    simp only [dispatch, Option.some.injEq] at h
    rw [← h, applyPlay_graph]
    exact hc
  case stop =>
    simp only [dispatch, Option.some.injEq] at h
    rw [← h, applyStop_graph]
    exact hc
  all_goals {
    rw [dispatch_eq_structural (by exact True.intro) m] at h
    obtain ⟨cs, g2, invs, hdec, happ, hm2⟩ := dispatchStructural_elim h
    subst hm2
    exact applyBatch_canon hc happ
  }

theorem undo_canon {m : Model} (hc : Canon m.graph) : Canon (undo m).graph := by
  unfold undo
  split
  · exact hc
  · split
    · exact hc
    · rename_i e rest g2 p happ
      exact applyBatch_canon hc happ

theorem redo_canon {m : Model} (hc : Canon m.graph) : Canon (redo m).graph := by
  unfold redo
  split
  · exact hc
  · split
    · exact hc
    · rename_i e rest g2 p happ
      exact applyBatch_canon hc happ

/-- Modelled from the spec: the "new document" operation — the Graph is
created empty, the history is fresh, and the playback state resets to
Stopped. -/
def newModel (m : Model) : Model :=
  { m with
      graph := emptyGraph
      undoStack := []
      redoStack := []
      playing := false }

/-- Modelled from the spec: `model.deserialize(text)` — on success the Graph
is replaced wholesale (returning `true`); on `FormatError` the current
document is left unmodified (returning `false`). -/
def modelImport (m : Model) (ts : List SToken) : Model × Bool :=
  match deserialize ts with
  | none => (m, false)
  | some g =>
    ({ m with
        graph := g
        undoStack := []
        redoStack := [] }, true)

/-- Models reachable in one session: a fresh document mutated by dispatched
commands, undo, redo, new-document resets and (validated) imports. -/
inductive Reachable : Model → Prop where
  | init : Reachable initModel
  | step (m : Model) (c : Cmd) (m2 : Model) :
      Reachable m → dispatch m c = some m2 → Reachable m2
  | undoStep (m : Model) : Reachable m → Reachable (undo m)
  | redoStep (m : Model) : Reachable m → Reachable (redo m)
  | newDoc (m : Model) : Reachable m → Reachable (newModel m)
  | imported (m : Model) (ts : List SToken) :
      Reachable m → Reachable (modelImport m ts).1

theorem canon_empty : Canon emptyGraph := by
  refine ⟨List.Pairwise.nil, List.Pairwise.nil, ?_⟩
  intro p hp
  simp [emptyGraph] at hp

theorem reachable_canon {m : Model} (h : Reachable m) : Canon m.graph := by
  induction h with
  | init => exact canon_empty
  | step m c m2 hr hd ih => exact dispatch_canon ih hd
  | undoStep m hr ih => exact undo_canon ih
  | redoStep m hr ih => exact redo_canon ih
  | newDoc m hr ih => exact canon_empty
  | imported m ts hr ih =>
    unfold modelImport
    split
    · exact ih
    · rename_i g hde
      exact deserialize_canon hde

/-! ### The UI layer embedded from `src/public/main.js` -/

/-- The page state touched by the playback and loading handlers of
`src/public/main.js`: the model plus the play/stop button visibility and
the document title. -/
structure UIState where
  model : Model
  btnPlayVisible : Bool
  btnStopVisible : Bool
  title : String

/-- Embeds `startPlayback` of `src/public/main.js`: an early return when
already playing; otherwise swap the buttons, prefix the title and send
`Play` to the model. -/
def startPlayback (s : UIState) : UIState :=
  if s.model.playing then s
  else
    { s with
        btnPlayVisible := false
        btnStopVisible := true
        title := "▶ " ++ s.title
        model := (dispatch s.model Cmd.play).getD s.model }

/-- Embeds `stopPlayback` of `src/public/main.js`: an early return when not
playing; otherwise swap the buttons, drop the two-character playback marker
from the title and send `Stop` to the model. -/
def stopPlayback (s : UIState) : UIState :=
  if s.model.playing then
    { s with
        btnPlayVisible := true
        btnStopVisible := false
        title := s.title.drop 2
        model := (dispatch s.model Cmd.stop).getD s.model }
  else s

/-- Embeds `importModel` of `src/public/main.js`: stop playback first (to
avoid glitching), then ask the model to deserialize the text. -/
def importModel (s : UIState) (ts : List SToken) : UIState × Bool :=
  let s2 := stopPlayback s
  let r := modelImport s2.model ts
  ({ s2 with model := r.1 }, r.2)

/-- Embeds `document.body.onload` of `src/public/main.js`: create a blank
project; with a hash fragment present return early (replacing a `#new` hash
by an empty one and touching neither the model nor the stored session
text); otherwise read the session text and import it when present.  The
result carries the page state, the resulting URL hash and the stored text
(which `onload` never writes). -/
def bodyOnload (s : UIState) (hash : String) (storage : Option (List SToken)) :
    UIState × String × Option (List SToken) :=
  let s1 := { s with model := newModel s.model }
  if hash ≠ "" then
    (s1, if hash = "#new" then "" else hash, storage)
  else
    match storage with
    | none => (s1, hash, storage)
    | some ts => ((importModel s1 ts).1, hash, storage)

/-- Embeds `document.onpaste` of `src/public/main.js`: nothing happens while
an input element is active; otherwise the Paste command is dispatched inside
a try/catch — on success the browser default is prevented, on any failure
the exception is swallowed, the model keeps its state and the default is
not prevented.  The Bool records whether `preventDefault` ran. -/
def onpaste (inputActive : Bool) (m : Model) (clip : Fragment)
    (cur : Int × Int) : Model × Bool :=
  if inputActive then (m, false)
  else
    match dispatch m (Cmd.paste clip cur) with
    | some m2 => (m2, true)
    | none => (m, false)

/-! ### Copy/paste of a two-node selection -/

theorem copy_pair {g : Graph} {a b : Nat} {nA nB : Node} {eid : Nat} {e : Edge}
    (hab : a ≠ b)
    (ha : alookup a g.nodes = some nA)
    (hb : alookup b g.nodes = some nB)
    (hsel : g.edges.filter
      (fun p => [a, b].contains p.2.src && [a, b].contains p.2.dst) = [(eid, e)])
    (hsrc : e.src = a) (hdst : e.dst = b) :
    copy g [a, b] =
      { nodes := [(0, nA), (1, nB)]
        edges :=
          [(0, { src := 0, srcPort := e.srcPort, dst := 1, dstPort := e.dstPort })] } := by
  unfold copy
  rw [hsel]
  simp [List.enum, List.enumFrom, ha, hb, idxOf, hsrc, hdst, Ne.symm hab]

theorem decode_pair (g : Graph) (nA nB : Node) (sp dp : Nat) (anchor : Int × Int) :
    decodeFragment g
      { nodes := [(0, nA), (1, nB)]
        edges := [(0, { src := 0, srcPort := sp, dst := 1, dstPort := dp })] } anchor =
    some [SCmd.addNode g.nextId
        { nA with pos := (nA.pos.1 + (anchor.1 - (bboxCenter [nA.pos, nB.pos]).1),
                          nA.pos.2 + (anchor.2 - (bboxCenter [nA.pos, nB.pos]).2)) },
      SCmd.addNode (g.nextId + 1)
        { nB with pos := (nB.pos.1 + (anchor.1 - (bboxCenter [nA.pos, nB.pos]).1),
                          nB.pos.2 + (anchor.2 - (bboxCenter [nA.pos, nB.pos]).2)) },
      SCmd.addEdge (g.nextId + 2)
        { src := g.nextId, srcPort := sp, dst := g.nextId + 1, dstPort := dp }] := by
  unfold decodeFragment
  rw [if_pos (show _ ∧ _ from ⟨by simp, by
    intro p hp
    simp at hp
    subst hp
    simp⟩)]
  simp [List.enum, List.enumFrom, alookup]

theorem decode_pair_ex (g : Graph) (nA nB : Node) (sp dp : Nat) (anchor : Int × Int) :
    ∃ nA2 nB2 : Node, nA2.type = nA.type ∧ nA2.params = nA.params ∧
      nB2.type = nB.type ∧ nB2.params = nB.params ∧
      decodeFragment g
        { nodes := [(0, nA), (1, nB)]
          edges := [(0, { src := 0, srcPort := sp, dst := 1, dstPort := dp })] } anchor =
      some [SCmd.addNode g.nextId nA2, SCmd.addNode (g.nextId + 1) nB2,
        SCmd.addEdge (g.nextId + 2)
          { src := g.nextId, srcPort := sp, dst := g.nextId + 1, dstPort := dp }] :=
  ⟨{ nA with pos := (nA.pos.1 + (anchor.1 - (bboxCenter [nA.pos, nB.pos]).1),
                     nA.pos.2 + (anchor.2 - (bboxCenter [nA.pos, nB.pos]).2)) },
    { nB with pos := (nB.pos.1 + (anchor.1 - (bboxCenter [nA.pos, nB.pos]).1),
                      nB.pos.2 + (anchor.2 - (bboxCenter [nA.pos, nB.pos]).2)) },
    rfl, rfl, rfl, rfl, decode_pair g nA nB sp dp anchor⟩

/-- C8: pasting a copied fragment of two nodes and their connecting edge
produces two new nodes with fresh ids (the counter value and its successor,
both distinct from every live id, and at least the counter, hence distinct
from every previously issued id), and one new edge that connects the two
new nodes to each other — with the original ports, but not touching the
original nodes, whose ids are strictly below the fresh ones. -/
theorem c8_paste_copied_pair {m : Model} {a b : Nat} {nA nB : Node} {eid : Nat}
    {e : Edge} (anchor : Int × Int) (hw : Wf m.graph) (hab : a ≠ b)
    (ha : alookup a m.graph.nodes = some nA)
    (hb : alookup b m.graph.nodes = some nB)
    (hsel : m.graph.edges.filter
      (fun p => [a, b].contains p.2.src && [a, b].contains p.2.dst) = [(eid, e)])
    (hsrc : e.src = a) (hdst : e.dst = b) :
    ∃ m2 nA2 nB2,
      dispatch m (Cmd.paste (copy m.graph [a, b]) anchor) = some m2 ∧
      nA2.type = nA.type ∧ nA2.params = nA.params ∧
      nB2.type = nB.type ∧ nB2.params = nB.params ∧
      m2.graph.nodes =
        insertSorted (m.graph.nextId + 1) nB2
          (insertSorted m.graph.nextId nA2 m.graph.nodes) ∧
      m2.graph.edges =
        insertSorted (m.graph.nextId + 2)
          { src := m.graph.nextId, srcPort := e.srcPort, dst := m.graph.nextId + 1, dstPort := e.dstPort }
          m.graph.edges ∧
      m.graph.nextId ∉ keysOf m.graph.nodes ∧
      (m.graph.nextId + 1) ∉ keysOf m.graph.nodes ∧
      (m.graph.nextId + 2) ∉ keysOf m.graph.edges ∧
      a < m.graph.nextId ∧ b < m.graph.nextId ∧
      (∀ k ∈ keysOf m.graph.nodes, k < m.graph.nextId) ∧
      (∀ k ∈ keysOf m.graph.edges, k < m.graph.nextId) := by
  have hcp := copy_pair hab ha hb hsel hsrc hdst
  obtain ⟨nA2, nB2, hA2t, hA2p, hB2t, hB2p, hdec⟩ :=
    decode_pair_ex m.graph nA nB e.srcPort e.dstPort anchor
  have hNnodes : m.graph.nextId ∉ keysOf m.graph.nodes :=
    fun hmem => absurd (hw.2.1 _ hmem) (lt_irrefl _)
  have hN1nodes : (m.graph.nextId + 1) ∉ keysOf m.graph.nodes :=
    fun hmem => by have := hw.2.1 _ hmem; omega
  have hN2edges : (m.graph.nextId + 2) ∉ keysOf m.graph.edges :=
    fun hmem => by have := hw.2.2.1 _ hmem; omega
  have hlookN : alookup m.graph.nextId m.graph.nodes = none :=
    (alookup_eq_none _ _).mpr hNnodes
  have hlookN1 : alookup (m.graph.nextId + 1)
      (insertSorted m.graph.nextId nA2 m.graph.nodes) = none := by
    rw [alookup_insertSorted_ne nA2 (by omega)]
    exact (alookup_eq_none _ _).mpr hN1nodes
  have hlookN2 : alookup (m.graph.nextId + 2) m.graph.edges = none :=
    (alookup_eq_none _ _).mpr hN2edges
  have h1 : applyStructural m.graph (SCmd.addNode m.graph.nextId nA2) =
      some (⟨insertSorted m.graph.nextId nA2 m.graph.nodes, m.graph.edges,
        m.graph.nextId + 1⟩, SCmd.removeNode m.graph.nextId) := by
    rw [applyStructural_intro (applyCore_addNode_intro nA2 hlookN)]
    rw [show max m.graph.nextId (SCmd.bump (SCmd.addNode m.graph.nextId nA2)) =
      m.graph.nextId + 1 from by simp [SCmd.bump]]
  have h2 : applyStructural
      ⟨insertSorted m.graph.nextId nA2 m.graph.nodes, m.graph.edges, m.graph.nextId + 1⟩
      (SCmd.addNode (m.graph.nextId + 1) nB2) =
      some (⟨insertSorted (m.graph.nextId + 1) nB2
          (insertSorted m.graph.nextId nA2 m.graph.nodes),
        m.graph.edges, m.graph.nextId + 2⟩, SCmd.removeNode (m.graph.nextId + 1)) := by
    rw [applyStructural_intro (applyCore_addNode_intro nB2 hlookN1)]
    rw [show max (m.graph.nextId + 1)
        (SCmd.bump (SCmd.addNode (m.graph.nextId + 1) nB2)) =
      m.graph.nextId + 2 from by simp [SCmd.bump]]
  have hsrcmem : m.graph.nextId ∈ keysOf (insertSorted (m.graph.nextId + 1) nB2
      (insertSorted m.graph.nextId nA2 m.graph.nodes)) :=
    mem_keys_insertSorted.mpr (Or.inr (mem_keys_insertSorted.mpr (Or.inl rfl)))
  have hdstmem : (m.graph.nextId + 1) ∈ keysOf (insertSorted (m.graph.nextId + 1) nB2
      (insertSorted m.graph.nextId nA2 m.graph.nodes)) :=
    mem_keys_insertSorted.mpr (Or.inl rfl)
  have hocc : ∀ q ∈ m.graph.edges,
      ¬(q.2.dst = ({ src := m.graph.nextId, srcPort := e.srcPort, dst := m.graph.nextId + 1, dstPort := e.dstPort } : Edge).dst ∧
        q.2.dstPort = ({ src := m.graph.nextId, srcPort := e.srcPort, dst := m.graph.nextId + 1, dstPort := e.dstPort } : Edge).dstPort) := by
    intro q hq hqd
    have hmem : q.2.dst ∈ keysOf m.graph.nodes := (hw.1.2.2 q hq).2
    have hlt : q.2.dst < m.graph.nextId := hw.2.1 _ hmem
    have hd2 := hqd.1
    simp only [] at hd2
    omega
  have h3 : applyStructural
      ⟨insertSorted (m.graph.nextId + 1) nB2
          (insertSorted m.graph.nextId nA2 m.graph.nodes),
        m.graph.edges, m.graph.nextId + 2⟩
      (SCmd.addEdge (m.graph.nextId + 2)
        { src := m.graph.nextId, srcPort := e.srcPort, dst := m.graph.nextId + 1, dstPort := e.dstPort }) =
      some (⟨insertSorted (m.graph.nextId + 1) nB2
          (insertSorted m.graph.nextId nA2 m.graph.nodes),
        insertSorted (m.graph.nextId + 2)
          { src := m.graph.nextId, srcPort := e.srcPort, dst := m.graph.nextId + 1, dstPort := e.dstPort }
          m.graph.edges,
        m.graph.nextId + 3⟩, SCmd.removeEdge (m.graph.nextId + 2)) := by
    rw [@applyStructural_intro
      ⟨insertSorted (m.graph.nextId + 1) nB2
          (insertSorted m.graph.nextId nA2 m.graph.nodes),
        m.graph.edges, m.graph.nextId + 2⟩
      (SCmd.addEdge (m.graph.nextId + 2)
        { src := m.graph.nextId, srcPort := e.srcPort, dst := m.graph.nextId + 1, dstPort := e.dstPort })
      _ _ _ (applyCore_addEdge_intro hlookN2 hsrcmem hdstmem hocc)]
    rw [show max (m.graph.nextId + 2)
        (SCmd.bump (SCmd.addEdge (m.graph.nextId + 2)
          { src := m.graph.nextId, srcPort := e.srcPort, dst := m.graph.nextId + 1, dstPort := e.dstPort })) =
      m.graph.nextId + 3 from by simp [SCmd.bump]]
  have happ : applyBatch m.graph
      [SCmd.addNode m.graph.nextId nA2, SCmd.addNode (m.graph.nextId + 1) nB2,
        SCmd.addEdge (m.graph.nextId + 2)
          { src := m.graph.nextId, srcPort := e.srcPort, dst := m.graph.nextId + 1, dstPort := e.dstPort }] =
      some (⟨insertSorted (m.graph.nextId + 1) nB2
          (insertSorted m.graph.nextId nA2 m.graph.nodes),
        insertSorted (m.graph.nextId + 2)
          { src := m.graph.nextId, srcPort := e.srcPort, dst := m.graph.nextId + 1, dstPort := e.dstPort }
          m.graph.edges,
        m.graph.nextId + 3⟩,
        [SCmd.removeEdge (m.graph.nextId + 2), SCmd.removeNode (m.graph.nextId + 1),
          SCmd.removeNode m.graph.nextId]) := by
    simp only [applyBatch, h1, h2, h3]
    rfl
  have hdec2 : decodeCmd m.graph (Cmd.paste
      { nodes := [(0, nA), (1, nB)]
        edges := [(0, { src := 0, srcPort := e.srcPort, dst := 1, dstPort := e.dstPort })] }
      anchor) =
      some [SCmd.addNode m.graph.nextId nA2, SCmd.addNode (m.graph.nextId + 1) nB2,
        SCmd.addEdge (m.graph.nextId + 2)
          { src := m.graph.nextId, srcPort := e.srcPort, dst := m.graph.nextId + 1, dstPort := e.dstPort }] := hdec
  refine ⟨{ m with
      graph := ⟨insertSorted (m.graph.nextId + 1) nB2
          (insertSorted m.graph.nextId nA2 m.graph.nodes),
        insertSorted (m.graph.nextId + 2)
          { src := m.graph.nextId, srcPort := e.srcPort, dst := m.graph.nextId + 1, dstPort := e.dstPort }
          m.graph.edges,
        m.graph.nextId + 3⟩
      undoStack := HistoryEntry.mk
        [SCmd.addNode m.graph.nextId nA2, SCmd.addNode (m.graph.nextId + 1) nB2,
          SCmd.addEdge (m.graph.nextId + 2)
            { src := m.graph.nextId, srcPort := e.srcPort, dst := m.graph.nextId + 1, dstPort := e.dstPort }]
        [SCmd.removeEdge (m.graph.nextId + 2), SCmd.removeNode (m.graph.nextId + 1),
          SCmd.removeNode m.graph.nextId] :: m.undoStack
      redoStack := [] }, nA2, nB2, ?_, hA2t, hA2p, hB2t, hB2p, rfl, rfl,
    hNnodes, hN1nodes, hN2edges,
    hw.2.1 a (mem_keys_of_alookup ha), hw.2.1 b (mem_keys_of_alookup hb),
    hw.2.1, hw.2.2.1⟩
  rw [hcp]
  rw [dispatch_eq_structural (show (Cmd.paste
    { nodes := [(0, nA), (1, nB)]
      edges := [(0, { src := 0, srcPort := e.srcPort, dst := 1, dstPort := e.dstPort })] }
    anchor).isStructural from True.intro) m]
  simp only [dispatchStructural, hdec2, happ]

/-! ### Claim theorems -/

theorem wf_init : Wf initModel.graph := by decide

instance (op : Op) : Decidable op.isChurn :=
  match op with
  | .exec (Cmd.addNode _) => isTrue True.intro
  | .exec (Cmd.removeNode _) => isTrue True.intro
  | .exec (Cmd.addEdge _ _ _ _) => isTrue True.intro
  | .exec (Cmd.removeEdge _) => isTrue True.intro
  | .exec (Cmd.moveNode _ _) => isFalse (fun h => h)
  | .exec (Cmd.setParam _ _ _) => isFalse (fun h => h)
  | .exec (Cmd.group _) => isFalse (fun h => h)
  | .exec (Cmd.paste _ _) => isFalse (fun h => h)
  | .exec Cmd.play => isFalse (fun h => h)
  | .exec Cmd.stop => isFalse (fun h => h)
  | .undoOp => isTrue True.intro
  | .redoOp => isTrue True.intro

/-- C1: for every reachable model, deserializing the text produced by
serializing its graph yields exactly the same graph — same nodes with
positions and parameters, same edges, same id counter. -/
theorem c1_serialize_roundtrip {m : Model} (h : Reachable m) :
    deserialize (serialize m.graph) = some m.graph :=
  deserialize_serialize (reachable_canon h)

theorem c1_serialize_roundtrip_witness :
    deserialize (serialize initModel.graph) = some initModel.graph :=
  c1_serialize_roundtrip Reachable.init

/-- C2 counterexample: applying one valid structural command (AddNode) to
the empty document and undoing it does not return the Graph to the empty
state — the id counter stays at 1 while the empty graph's counter is 0 —
so the claim as stated is false. -/
theorem c2_counterexample :
    ((dispatchAll initModel [Cmd.addNode ⟨"sine", [], (0, 0)⟩]).map
      (fun m2 => (undoN 1 m2).graph) ≠ some emptyGraph) ∧
    (dispatchAll initModel [Cmd.addNode ⟨"sine", [], (0, 0)⟩]).isSome = true ∧
    initModel.graph = emptyGraph := by decide

/-- C2 (amended): for any sequence of valid structural commands applied from
the empty document, n undos return the Graph to one with no nodes and no
edges (the id counter may stay advanced, as required by the monotone-counter
invariant), and n undos followed by n redos reproduce exactly the Graph
obtained by applying the commands directly. -/
theorem c2_undo_redo_inverse {cs : List Cmd} {m : Model}
    (hs : ∀ c ∈ cs, c.isStructural) (h : dispatchAll initModel cs = some m) :
    (undoN cs.length m).graph.nodes = [] ∧
    (undoN cs.length m).graph.edges = [] ∧
    (redoN cs.length (undoN cs.length m)).graph = m.graph := by
  obtain ⟨es, hu, hr⟩ := undoN_redoN_main cs wf_init hs h
  refine ⟨?_, ?_, ?_⟩
  · rw [hu]
    rfl
  · rw [hu]
    rfl
  · rw [hu, hr]

theorem c2_undo_redo_inverse_witness :
    (undoN 1 ⟨⟨[(0, ⟨"sine", [], (0, 0)⟩)], [], 1⟩,
      [HistoryEntry.mk [SCmd.addNode 0 ⟨"sine", [], (0, 0)⟩] [SCmd.removeNode 0]],
      [], false, 0, 0⟩).graph.nodes = [] ∧
    (undoN 1 ⟨⟨[(0, ⟨"sine", [], (0, 0)⟩)], [], 1⟩,
      [HistoryEntry.mk [SCmd.addNode 0 ⟨"sine", [], (0, 0)⟩] [SCmd.removeNode 0]],
      [], false, 0, 0⟩).graph.edges = [] ∧
    (redoN 1 (undoN 1 ⟨⟨[(0, ⟨"sine", [], (0, 0)⟩)], [], 1⟩,
      [HistoryEntry.mk [SCmd.addNode 0 ⟨"sine", [], (0, 0)⟩] [SCmd.removeNode 0]],
      [], false, 0, 0⟩)).graph =
      (⟨⟨[(0, ⟨"sine", [], (0, 0)⟩)], [], 1⟩,
        [HistoryEntry.mk [SCmd.addNode 0 ⟨"sine", [], (0, 0)⟩] [SCmd.removeNode 0]],
        [], false, 0, 0⟩ : Model).graph :=
  @c2_undo_redo_inverse [Cmd.addNode ⟨"sine", [], (0, 0)⟩]
    ⟨⟨[(0, ⟨"sine", [], (0, 0)⟩)], [], 1⟩,
      [HistoryEntry.mk [SCmd.addNode 0 ⟨"sine", [], (0, 0)⟩] [SCmd.removeNode 0]],
      [], false, 0, 0⟩
    (by decide) (by decide)

/-- C3: after any finite sequence of add, remove, undo and redo operations
from the empty document, no two live nodes share an id, no two live edges
share an id, the chronological log of freshly minted ids is strictly
increasing (so every fresh id differs from every id previously issued), and
no operation ever decreases the id counter. -/
theorem c3_id_uniqueness {ops : List Op} {m : Model} {log : List Nat}
    (hch : ∀ op ∈ ops, op.isChurn) (h : runLog initModel ops = some (m, log)) :
    (keysOf m.graph.nodes).Nodup ∧ (keysOf m.graph.edges).Nodup ∧
    log.Pairwise (fun i j => i < j) ∧
    (∀ m1 op m2, stepOp m1 op = some m2 → m1.graph.nextId ≤ m2.graph.nextId) := by
  obtain ⟨hwf, _, _, hpw⟩ := runLog_churn ops wf_init hch h
  refine ⟨nodup_keys_of_sorted hwf.1.1, nodup_keys_of_sorted hwf.1.2.1, hpw, ?_⟩
  intro m1 op m2 hstep
  cases op with
  | exec c => exact dispatch_mono hstep
  | undoOp =>
    simp only [stepOp, Option.some.injEq] at hstep
    subst hstep
    exact undo_mono m1
  | redoOp =>
    simp only [stepOp, Option.some.injEq] at hstep
    subst hstep
    exact redo_mono m1

theorem c3_id_uniqueness_witness :
    (keysOf (⟨⟨[(0, ⟨"sine", [], (0, 0)⟩), (1, ⟨"saw", [], (1, 1)⟩)], [], 2⟩,
      [HistoryEntry.mk [SCmd.addNode 1 ⟨"saw", [], (1, 1)⟩] [SCmd.removeNode 1],
        HistoryEntry.mk [SCmd.addNode 0 ⟨"sine", [], (0, 0)⟩] [SCmd.removeNode 0]],
      [], false, 0, 0⟩ : Model).graph.nodes).Nodup ∧
    (keysOf (⟨⟨[(0, ⟨"sine", [], (0, 0)⟩), (1, ⟨"saw", [], (1, 1)⟩)], [], 2⟩,
      [HistoryEntry.mk [SCmd.addNode 1 ⟨"saw", [], (1, 1)⟩] [SCmd.removeNode 1],
        HistoryEntry.mk [SCmd.addNode 0 ⟨"sine", [], (0, 0)⟩] [SCmd.removeNode 0]],
      [], false, 0, 0⟩ : Model).graph.edges).Nodup ∧
    ([0, 1] : List Nat).Pairwise (fun i j => i < j) := by
  have H := @c3_id_uniqueness
    [Op.exec (Cmd.addNode ⟨"sine", [], (0, 0)⟩), Op.undoOp, Op.redoOp,
      Op.exec (Cmd.addNode ⟨"saw", [], (1, 1)⟩)]
    ⟨⟨[(0, ⟨"sine", [], (0, 0)⟩), (1, ⟨"saw", [], (1, 1)⟩)], [], 2⟩,
      [HistoryEntry.mk [SCmd.addNode 1 ⟨"saw", [], (1, 1)⟩] [SCmd.removeNode 1],
        HistoryEntry.mk [SCmd.addNode 0 ⟨"sine", [], (0, 0)⟩] [SCmd.removeNode 0]],
      [], false, 0, 0⟩
    [0, 1] (by decide) (by decide)
  exact ⟨H.1, H.2.1, H.2.2.1⟩

/-- C4: whenever deserialization fails — for any input text, be the failure
syntactic, a duplicate id or a dangling edge reference — the FormatError is
signalled by the `false` result and the caller's current document is left
completely unmodified: nothing is ever partially applied. -/
theorem c4_deserialize_failure_total {m : Model} {ts : List SToken}
    (h : deserialize ts = none) :
    modelImport m ts = (m, false) := by
  unfold modelImport
  rw [h]

theorem c4_deserialize_failure_total_witness :
    deserialize (serialize ⟨[(0, ⟨"sine", [], (0, 0)⟩), (0, ⟨"sine", [], (0, 0)⟩)], [], 1⟩)
      = none ∧
    modelImport initModel
      (serialize ⟨[(0, ⟨"sine", [], (0, 0)⟩), (0, ⟨"sine", [], (0, 0)⟩)], [], 1⟩) =
      (initModel, false) :=
  ⟨by decide, c4_deserialize_failure_total (by decide)⟩

/-- C5: a successfully dispatched Paste (or GroupNodes) command is recorded
as a single atomic history entry, and one undo removes every node and edge
the command introduced, restoring the previous node and edge collections
exactly — never a partial subset. -/
theorem c5_paste_group_atomic {m : Model} {c : Cmd} {m2 : Model}
    (hw : Wf m.graph)
    (hc : (∃ frag anchor, c = Cmd.paste frag anchor) ∨ ∃ nids, c = Cmd.group nids)
    (h : dispatch m c = some m2) :
    ∃ e, m2.undoStack = e :: m.undoStack ∧ m2.redoStack = [] ∧
      (undo m2).graph.nodes = m.graph.nodes ∧
      (undo m2).graph.edges = m.graph.edges ∧
      (undo m2).undoStack = m.undoStack := by
  have hs : c.isStructural := by
    rcases hc with ⟨f, an, rfl⟩ | ⟨nids, rfl⟩
    · exact True.intro
    · exact True.intro
  obtain ⟨e, h1, h2, _, _, _, h6⟩ := undo_dispatch hw hs h
  refine ⟨e, h1, h2, ?_, ?_, ?_⟩ <;> rw [h6]

theorem c5_paste_group_atomic_witness :
    Wf initModel.graph ∧
    ∃ e, (⟨⟨[(0, ⟨"sine", [], (0, 0)⟩)], [], 1⟩,
        [HistoryEntry.mk [SCmd.addNode 0 ⟨"sine", [], (0, 0)⟩] [SCmd.removeNode 0]],
        [], false, 0, 0⟩ : Model).undoStack = e :: initModel.undoStack ∧
      (⟨⟨[(0, ⟨"sine", [], (0, 0)⟩)], [], 1⟩,
        [HistoryEntry.mk [SCmd.addNode 0 ⟨"sine", [], (0, 0)⟩] [SCmd.removeNode 0]],
        [], false, 0, 0⟩ : Model).redoStack = [] ∧
      (undo ⟨⟨[(0, ⟨"sine", [], (0, 0)⟩)], [], 1⟩,
        [HistoryEntry.mk [SCmd.addNode 0 ⟨"sine", [], (0, 0)⟩] [SCmd.removeNode 0]],
        [], false, 0, 0⟩).graph.nodes = initModel.graph.nodes ∧
      (undo ⟨⟨[(0, ⟨"sine", [], (0, 0)⟩)], [], 1⟩,
        [HistoryEntry.mk [SCmd.addNode 0 ⟨"sine", [], (0, 0)⟩] [SCmd.removeNode 0]],
        [], false, 0, 0⟩).graph.edges = initModel.graph.edges ∧
      (undo ⟨⟨[(0, ⟨"sine", [], (0, 0)⟩)], [], 1⟩,
        [HistoryEntry.mk [SCmd.addNode 0 ⟨"sine", [], (0, 0)⟩] [SCmd.removeNode 0]],
        [], false, 0, 0⟩).undoStack = initModel.undoStack :=
  ⟨by decide, c5_paste_group_atomic (by decide)
    (Or.inl ⟨⟨[(0, ⟨"sine", [], (0, 0)⟩)], []⟩, (0, 0), rfl⟩) (by decide)⟩

/-- C6: the Play transition is idempotent at the playback boundary — from
Stopped, `startPlayback` moves the model to Playing and emits exactly one
PlaybackStarted notification (and no Stop notification); while already
Playing it is a complete no-op emitting nothing; `stopPlayback` behaves
symmetrically. -/
theorem c6_play_stop_idempotent (s : UIState) :
    (s.model.playing = false →
      (startPlayback s).model.playing = true ∧
      (startPlayback s).model.startedCount = s.model.startedCount + 1 ∧
      (startPlayback s).model.stoppedCount = s.model.stoppedCount) ∧
    (s.model.playing = true → startPlayback s = s) ∧
    (s.model.playing = true →
      (stopPlayback s).model.playing = false ∧
      (stopPlayback s).model.stoppedCount = s.model.stoppedCount + 1 ∧
      (stopPlayback s).model.startedCount = s.model.startedCount) ∧
    (s.model.playing = false → stopPlayback s = s) := by
  refine ⟨fun h => ?_, fun h => ?_, fun h => ?_, fun h => ?_⟩
  · simp [startPlayback, h, dispatch, applyPlay]
  · simp [startPlayback, h]
  · simp [stopPlayback, h, dispatch, applyStop]
  · simp [stopPlayback, h]

theorem c6_play_stop_idempotent_witness :
    ((startPlayback ⟨initModel, true, false, "np"⟩).model.playing = true ∧
      (startPlayback ⟨initModel, true, false, "np"⟩).model.startedCount = 0 + 1 ∧
      (startPlayback ⟨initModel, true, false, "np"⟩).model.stoppedCount = 0) ∧
    startPlayback ⟨⟨emptyGraph, [], [], true, 1, 0⟩, false, true, "▶ np"⟩ =
      ⟨⟨emptyGraph, [], [], true, 1, 0⟩, false, true, "▶ np"⟩ ∧
    ((stopPlayback ⟨⟨emptyGraph, [], [], true, 1, 0⟩, false, true, "▶ np"⟩).model.playing
        = false ∧
      (stopPlayback ⟨⟨emptyGraph, [], [], true, 1, 0⟩,
        false, true, "▶ np"⟩).model.stoppedCount = 0 + 1 ∧
      (stopPlayback ⟨⟨emptyGraph, [], [], true, 1, 0⟩,
        false, true, "▶ np"⟩).model.startedCount = 1) ∧
    stopPlayback ⟨initModel, true, false, "np"⟩ = ⟨initModel, true, false, "np"⟩ :=
  ⟨(c6_play_stop_idempotent ⟨initModel, true, false, "np"⟩).1 rfl,
    (c6_play_stop_idempotent ⟨⟨emptyGraph, [], [], true, 1, 0⟩, false, true, "▶ np"⟩).2.1 rfl,
    (c6_play_stop_idempotent ⟨⟨emptyGraph, [], [], true, 1, 0⟩, false, true, "▶ np"⟩).2.2.1 rfl,
    (c6_play_stop_idempotent ⟨initModel, true, false, "np"⟩).2.2.2 rfl⟩

/-- C7: loading, creating or importing a document never swaps the graph
while Playing — `importModel` performs the implicit Stop transition first
and only then hands the (stopped) model to the deserializer, the import
leaves the playback state Stopped, and a new document's playback state is
Stopped by construction. -/
theorem c7_import_stops_before_swap (s : UIState) (ts : List SToken) :
    (stopPlayback s).model.playing = false ∧
    importModel s ts =
      ({ stopPlayback s with model := (modelImport (stopPlayback s).model ts).1 },
        (modelImport (stopPlayback s).model ts).2) ∧
    (importModel s ts).1.model.playing = false ∧
    (newModel s.model).playing = false := by
  have hpres : ∀ (m : Model) (ts2 : List SToken),
      ((modelImport m ts2).1).playing = m.playing := by
    intro m ts2
    unfold modelImport
    split <;> rfl
  have hstop : (stopPlayback s).model.playing = false := by
    unfold stopPlayback
    split
    · rename_i h
      simp [dispatch, applyStop, h]
    · rename_i h
      simpa using h
  refine ⟨hstop, rfl, ?_, rfl⟩
  show ((modelImport (stopPlayback s).model ts).1).playing = false
  rw [hpres, hstop]

theorem c8_paste_copied_pair_witness :
    ∃ m2 nA2 nB2,
      dispatch ⟨⟨[(0, ⟨"sine", [], (0, 0)⟩), (1, ⟨"out", [], (2, 0)⟩)],
          [(0, ⟨0, 0, 1, 0⟩)], 2⟩, [], [], false, 0, 0⟩
        (Cmd.paste
          (copy ⟨[(0, ⟨"sine", [], (0, 0)⟩), (1, ⟨"out", [], (2, 0)⟩)],
            [(0, ⟨0, 0, 1, 0⟩)], 2⟩ [0, 1]) (100, 100)) = some m2 ∧
      nA2.type = "sine" ∧ nA2.params = [] ∧ nB2.type = "out" ∧ nB2.params = [] ∧
      m2.graph.nodes = insertSorted 3 nB2 (insertSorted 2 nA2
        [(0, ⟨"sine", [], (0, 0)⟩), (1, ⟨"out", [], (2, 0)⟩)]) ∧
      m2.graph.edges = insertSorted 4 ⟨2, 0, 3, 0⟩ [(0, ⟨0, 0, 1, 0⟩)] ∧
      (2 : Nat) ∉ keysOf [(0, (⟨"sine", [], (0, 0)⟩ : Node)), (1, ⟨"out", [], (2, 0)⟩)] ∧
      (3 : Nat) ∉ keysOf [(0, (⟨"sine", [], (0, 0)⟩ : Node)), (1, ⟨"out", [], (2, 0)⟩)] ∧
      (4 : Nat) ∉ keysOf [(0, (⟨0, 0, 1, 0⟩ : Edge))] ∧
      0 < 2 ∧ 1 < 2 := by
  obtain ⟨m2, nA2, nB2, h1, h2, h3, h4, h5, h6, h7, h8, h9, h10, h11, h12, _, _⟩ :=
    @c8_paste_copied_pair
      ⟨⟨[(0, ⟨"sine", [], (0, 0)⟩), (1, ⟨"out", [], (2, 0)⟩)],
        [(0, ⟨0, 0, 1, 0⟩)], 2⟩, [], [], false, 0, 0⟩
      0 1 ⟨"sine", [], (0, 0)⟩ ⟨"out", [], (2, 0)⟩ 0 ⟨0, 0, 1, 0⟩ (100, 100)
      (by decide) (by decide) (by decide) (by decide) (by decide) (by decide) (by decide)
  exact ⟨m2, nA2, nB2, h1, h2, h3, h4, h5, h6, h7, h8, h9, h10, h11, h12⟩

/-- C9: the paste handler swallows every failure of Paste-command
construction or application — for any clipboard fragment on which the
dispatch fails, the handler returns normally with the model unchanged, no
error value, and without preventing the browser's default paste behavior. -/
theorem c9_onpaste_swallows_errors {m : Model} {clip : Fragment} {cur : Int × Int}
    (h : dispatch m (Cmd.paste clip cur) = none) :
    onpaste false m clip cur = (m, false) := by
  simp [onpaste, h]

theorem c9_onpaste_swallows_errors_witness :
    dispatch initModel (Cmd.paste ⟨[], [(0, ⟨5, 0, 6, 0⟩)]⟩ (0, 0)) = none ∧
    onpaste false initModel ⟨[], [(0, ⟨5, 0, 6, 0⟩)]⟩ (0, 0) = (initModel, false) :=
  ⟨by decide, c9_onpaste_swallows_errors (by decide)⟩

/-- C10: on page load a fresh blank document is always created; the stored
session text under the fixed key is deserialized into the model exactly
when the URL has no hash fragment and the key is present; with any hash
fragment present the saved state is neither read into the model nor erased,
and a `#new` hash is removed from the URL. -/
theorem c10_onload_session_restore (s : UIState) (hash : String)
    (storage : Option (List SToken)) :
    (hash ≠ "" →
      bodyOnload s hash storage =
        ({ s with model := newModel s.model },
          (if hash = "#new" then "" else hash), storage)) ∧
    (hash = "" → storage = none →
      bodyOnload s hash storage = ({ s with model := newModel s.model }, hash, none)) ∧
    (∀ ts, hash = "" → storage = some ts →
      bodyOnload s hash storage =
        ((importModel { s with model := newModel s.model } ts).1, hash, storage)) := by
  refine ⟨fun h => ?_, fun h1 h2 => ?_, fun ts h1 h2 => ?_⟩
  · simp [bodyOnload, h]
  · subst h1
    subst h2
    simp [bodyOnload]
  · subst h1
    subst h2
    simp [bodyOnload]

theorem c10_onload_session_restore_witness :
    bodyOnload ⟨initModel, true, false, "t"⟩ "#new" (some []) =
      (⟨newModel initModel, true, false, "t"⟩, "", some []) ∧
    bodyOnload ⟨initModel, true, false, "t"⟩ "" none =
      (⟨newModel initModel, true, false, "t"⟩, "", none) ∧
    bodyOnload ⟨initModel, true, false, "t"⟩ "" (some []) =
      ((importModel ⟨newModel initModel, true, false, "t"⟩ []).1, "", some []) :=
  ⟨(c10_onload_session_restore ⟨initModel, true, false, "t"⟩ "#new" (some [])).1
      (by decide),
    (c10_onload_session_restore ⟨initModel, true, false, "t"⟩ "" none).2.1 rfl rfl,
    (c10_onload_session_restore ⟨initModel, true, false, "t"⟩ "" (some [])).2.2 [] rfl rfl⟩

end Noisecraft
